import Mathlib

/-
  Verification of the bisimulation decomposition engine
  (src/storage/bisimulation/BisimulationDecomposition.cpp).

  Shallow embedding conventions:
  * states are natural numbers 0 .. numberOfStates-1;
  * the opaque numeric value type (double / RationalFunction in the
    source's template instantiations) is modelled as the exact rationals ℚ,
    matching the spec's demand for exact signature comparison;
  * std::set is modelled as a list under membership semantics;
  * BitVector state sets are modelled as ascending lists of states
    (so *begin() is the head);
  * boost::optional is Option, STORM_LOG_THROW is Except.error.
-/

inductive OptimizationDirection where
  | Minimize
  | Maximize
  deriving DecidableEq

inductive ComparisonType where
  | Less
  | LessEqual
  | Greater
  | GreaterEqual
  deriving DecidableEq

inductive BisimulationType where
  | Strong
  | Weak
  deriving DecidableEq

/-- A reward model, seen through the narrow interface the decomposition uses:
a state-reward vector and the hasOnlyStateRewards query. -/
structure RewardModel where
  stateRewards : Nat → ℚ
  onlyStateRewards : Bool

/-- The model collaborator, seen through the narrow interface of the spec
(section 6): state count, transition probabilities, labeling, reward models.
`exprSat` is the external evaluation of atomic expressions over states. -/
structure Model where
  numberOfStates : Nat
  trans : Nat → Nat → ℚ
  labels : List String
  labelSat : String → Nat → Bool
  exprSat : String → Nat → Bool
  rewardModels : List RewardModel

def Model.hasRewardModel (m : Model) : Bool := !m.rewardModels.isEmpty

def Model.hasUniqueRewardModel (m : Model) : Bool := m.rewardModels.length == 1

def Model.uniqueRewardModel (m : Model) : RewardModel :=
  m.rewardModels.headD ⟨fun _ => 0, true⟩

/-- The formula AST, seen through the narrow interface of the spec (section 6):
probability/reward operators with optional optimality direction and optional
bound (modelled by its comparison operator), until/eventually/bounded-until/
next path formulas, and the propositional fragment. -/
inductive Formula where
  | boolLit (b : Bool)
  | atomicLabel (l : String)
  | atomicExpr (e : String)
  | notF (f : Formula)
  | andF (f g : Formula)
  | untilF (l r : Formula)
  | boundedUntilF (l r : Formula)
  | eventuallyF (f : Formula)
  | nextF (f : Formula)
  | probOp (optimalityType : Option OptimizationDirection) (comparison : Option ComparisonType) (sub : Formula)
  | rewardOp (optimalityType : Option OptimizationDirection) (comparison : Option ComparisonType) (sub : Formula)
  deriving DecidableEq

/-- FormulaInformation::containsRewardOperator. -/
def Formula.containsRewardOperator : Formula → Bool
  | .boolLit _ => false
  | .atomicLabel _ => false
  | .atomicExpr _ => false
  | .notF f => f.containsRewardOperator
  | .andF f g => f.containsRewardOperator || g.containsRewardOperator
  | .untilF f g => f.containsRewardOperator || g.containsRewardOperator
  | .boundedUntilF f g => f.containsRewardOperator || g.containsRewardOperator
  | .eventuallyF f => f.containsRewardOperator
  | .nextF f => f.containsRewardOperator
  | .probOp _ _ f => f.containsRewardOperator
  | .rewardOp _ _ _ => true

/-- FormulaInformation::containsBoundedUntilFormula. -/
def Formula.containsBoundedUntilFormula : Formula → Bool
  | .boolLit _ => false
  | .atomicLabel _ => false
  | .atomicExpr _ => false
  | .notF f => f.containsBoundedUntilFormula
  | .andF f g => f.containsBoundedUntilFormula || g.containsBoundedUntilFormula
  | .untilF f g => f.containsBoundedUntilFormula || g.containsBoundedUntilFormula
  | .boundedUntilF _ _ => true
  | .eventuallyF f => f.containsBoundedUntilFormula
  | .nextF f => f.containsBoundedUntilFormula
  | .probOp _ _ f => f.containsBoundedUntilFormula
  | .rewardOp _ _ f => f.containsBoundedUntilFormula

/-- FormulaInformation::containsNextFormula. -/
def Formula.containsNextFormula : Formula → Bool
  | .boolLit _ => false
  | .atomicLabel _ => false
  | .atomicExpr _ => false
  | .notF f => f.containsNextFormula
  | .andF f g => f.containsNextFormula || g.containsNextFormula
  | .untilF f g => f.containsNextFormula || g.containsNextFormula
  | .boundedUntilF f g => f.containsNextFormula || g.containsNextFormula
  | .eventuallyF f => f.containsNextFormula
  | .nextF _ => true
  | .probOp _ _ f => f.containsNextFormula
  | .rewardOp _ _ f => f.containsNextFormula

/-- Formula::getAtomicLabelFormulas, reduced to the label strings. -/
def Formula.atomicLabelStrings : Formula → List String
  | .boolLit _ => []
  | .atomicLabel l => [l]
  | .atomicExpr _ => []
  | .notF f => f.atomicLabelStrings
  | .andF f g => f.atomicLabelStrings ++ g.atomicLabelStrings
  | .untilF f g => f.atomicLabelStrings ++ g.atomicLabelStrings
  | .boundedUntilF f g => f.atomicLabelStrings ++ g.atomicLabelStrings
  | .eventuallyF f => f.atomicLabelStrings
  | .nextF f => f.atomicLabelStrings
  | .probOp _ _ f => f.atomicLabelStrings
  | .rewardOp _ _ f => f.atomicLabelStrings

/-- Formula::getAtomicExpressionFormulas, reduced to the expressions'
toString images (which is how the source inserts them into the respected
set). -/
def Formula.atomicExprStrings : Formula → List String
  | .boolLit _ => []
  | .atomicLabel _ => []
  | .atomicExpr e => [e]
  | .notF f => f.atomicExprStrings
  | .andF f g => f.atomicExprStrings ++ g.atomicExprStrings
  | .untilF f g => f.atomicExprStrings ++ g.atomicExprStrings
  | .boundedUntilF f g => f.atomicExprStrings ++ g.atomicExprStrings
  | .eventuallyF f => f.atomicExprStrings
  | .nextF f => f.atomicExprStrings
  | .probOp _ _ f => f.atomicExprStrings
  | .rewardOp _ _ f => f.atomicExprStrings

/-- Formula::isInFragment(storm::logic::propositional()). -/
def Formula.isPropositional : Formula → Bool
  | .boolLit _ => true
  | .atomicLabel _ => true
  | .atomicExpr _ => true
  | .notF f => f.isPropositional
  | .andF f g => f.isPropositional && g.isPropositional
  | _ => false

/-- Modelled from the spec: the SparsePropositionalModelChecker collaborator
(absent from src/), which, given a purely propositional formula, "return[s]
the exact set of states where it holds". -/
def checkProp (m : Model) : Formula → Nat → Bool
  | .boolLit b, _ => b
  | .atomicLabel l, s => m.labelSat l s
  | .atomicExpr e, s => m.exprSat e s
  | .notF f, s => !(checkProp m f s)
  | .andF f g, s => checkProp m f s && checkProp m g s
  | _, _ => false

/-- The state set (ascending, mirroring a BitVector) where a propositional
formula holds. -/
def stateSetOf (m : Model) (f : Formula) : List Nat :=
  (List.range m.numberOfStates).filter (checkProp m f)

/-- BisimulationDecomposition::Options (BisimulationDecomposition.h /
BisimulationDecomposition.cpp lines 50-52 for the defaults). -/
structure Options where
  measureDrivenInitialPartition : Bool
  phiStates : Option (List Nat)
  psiStates : Option (List Nat)
  respectedAtomicPropositions : Option (List String)
  buildQuotient : Bool
  keepRewards : Bool
  type : BisimulationType
  bounded : Bool
  optimalityType : Option OptimizationDirection

/-- Options::Options() — the default constructor (source line 50). -/
def Options.default0 : Options :=
  { measureDrivenInitialPartition := false
    phiStates := none
    psiStates := none
    respectedAtomicPropositions := none
    buildQuotient := true
    keepRewards := false
    type := BisimulationType.Strong
    bounded := false
    optimalityType := none }

/-- Options::addToRespectedAtomicPropositions (source lines 148-161):
collect the labels and the expressions' strings and union them into the
respected set (std::set modelled as a list under membership). -/
def Options.addToRespectedAtomicPropositions (opts : Options)
    (exprs labels : List String) : Options :=
  let labelsToRespect := labels ++ exprs
  match opts.respectedAtomicPropositions with
  | none => { opts with respectedAtomicPropositions := some labelsToRespect }
  | some old => { opts with respectedAtomicPropositions := some (old ++ labelsToRespect) }

/-- Options::preserveFormula (source lines 54-72). -/
def Options.preserveFormula (opts : Options) (f : Formula) : Options :=
  let o1 := { opts with measureDrivenInitialPartition := false
                        phiStates := (none : Option (List Nat))
                        psiStates := (none : Option (List Nat)) }
  let o2 := { o1 with keepRewards := o1.keepRewards || f.containsRewardOperator }
  let o3 := { o2 with bounded := o2.bounded || (f.containsBoundedUntilFormula || f.containsNextFormula) }
  o3.addToRespectedAtomicPropositions f.atomicExprStrings f.atomicLabelStrings

/-- First half of Options::checkAndSetMeasureDrivenInitialPartition (source
lines 93-119): unwrap a single leading probability/reward operator, setting
optimalityType from its explicit direction or — if only a bound is present —
from the bound's comparison operator. -/
def Options.setOptimalityFromOperator (opts : Options) (f : Formula) :
    Options × Formula :=
  match f with
  | .probOp optType cmp sub =>
    match optType with
    | some d => ({ opts with optimalityType := some d }, sub)
    | none =>
      match cmp with
      | some c =>
        if c = ComparisonType.Less ∨ c = ComparisonType.LessEqual then
          ({ opts with optimalityType := some OptimizationDirection.Maximize }, sub)
        else
          ({ opts with optimalityType := some OptimizationDirection.Minimize }, sub)
      | none => (opts, sub)
  | .rewardOp optType cmp sub =>
    match optType with
    | some d => ({ opts with optimalityType := some d }, sub)
    | none =>
      match cmp with
      | some c =>
        if c = ComparisonType.Less ∨ c = ComparisonType.LessEqual then
          ({ opts with optimalityType := some OptimizationDirection.Maximize }, sub)
        else
          ({ opts with optimalityType := some OptimizationDirection.Minimize }, sub)
      | none => (opts, sub)
  | _ => (opts, f)

/-- Second half of Options::checkAndSetMeasureDrivenInitialPartition (source
lines 121-144): enable the measure-driven partition when the unwrapped
formula is an until/eventually with propositional side(s), in which case
phi/psi become the satisfaction sets of the left (default: the true literal)
and right subformulas computed by the propositional checker; otherwise reset
optimalityType.  The source only reads the right subformula in branches that
set it. -/
def Options.measureDrivenFromPath (o1 : Options) (m : Model) (nf : Formula) :
    Options :=
  let branch : Options × Formula × Option Formula :=
    match nf with
    | .untilF l r =>
      if l.isPropositional && r.isPropositional then
        ({ o1 with measureDrivenInitialPartition := true }, l, some r)
      else (o1, l, some r)
    | .eventuallyF r =>
      if r.isPropositional then
        ({ o1 with measureDrivenInitialPartition := true }, Formula.boolLit true, some r)
      else (o1, Formula.boolLit true, some r)
    | _ => (o1, Formula.boolLit true, none)
  let o2 := branch.1
  if o2.measureDrivenInitialPartition then
    match branch.2.2 with
    | some r =>
      { o2 with phiStates := some (stateSetOf m branch.2.1)
                psiStates := some (stateSetOf m r) }
    | none => o2
  else
    { o2 with optimalityType := none }

/-- Options::checkAndSetMeasureDrivenInitialPartition (source lines 91-145),
as the composition of the two halves above.  The caller
(preserveSingleFormula) always enters with
measureDrivenInitialPartition = false. -/
def Options.checkAndSetMeasureDrivenInitialPartition (opts : Options)
    (m : Model) (f : Formula) : Options :=
  let u := opts.setOptimalityFromOperator f
  u.1.measureDrivenFromPath m u.2

/-- Options::preserveSingleFormula (source lines 74-89). -/
def Options.preserveSingleFormula (opts : Options) (m : Model) (f : Formula) : Options :=
  let o1 := { opts with keepRewards := f.containsRewardOperator
                        bounded := f.containsBoundedUntilFormula || f.containsNextFormula }
  let o2 := o1.addToRespectedAtomicPropositions f.atomicExprStrings f.atomicLabelStrings
  o2.checkAndSetMeasureDrivenInitialPartition m f

/-- Options::Options(model, formula) (source lines 30-33). -/
def optionsFromFormula (m : Model) (f : Formula) : Options :=
  Options.default0.preserveSingleFormula m f

/-- Options::Options(model, formulas) (source lines 35-47).  The source's
empty-list branch falls through into the loop branch, which then iterates
zero times, so its net effect is only to preset the respected labels and
keepRewards. -/
def optionsFromFormulas (m : Model) (fs : List Formula) : Options :=
  let base :=
    if fs.isEmpty then
      { Options.default0 with respectedAtomicPropositions := some m.labels
                              keepRewards := true }
    else Options.default0
  if fs.length = 1 then base.preserveSingleFormula m (fs.headD (Formula.boolLit true))
  else fs.foldl (fun o f => o.preserveFormula f) base

/-- A block of the partition: its states and the pending-splitter flag kept
in its BlockData (the splitter vector of performPartitionRefinement holds
exactly the blocks whose flag is set). -/
structure Block where
  states : List Nat
  splitter : Bool
  deriving DecidableEq

/-- The aggregated transition probability ("signature") that state s places
on the states of a block. -/
def signature (m : Model) (s : Nat) (B : List Nat) : ℚ :=
  (B.map (m.trans s)).sum

/-- Insert a state into the group keyed by k (helper for grouping states by
their signature / reward / label key). -/
def insertByKey {κ : Type} [DecidableEq κ] (k : κ) (s : Nat) :
    List (κ × List Nat) → List (κ × List Nat)
  | [] => [(k, [s])]
  | (k0, xs) :: rest =>
    if k0 = k then (k0, s :: xs) :: rest else (k0, xs) :: insertByKey k s rest

/-- Group a list of states by a key function. -/
def groupByKey {κ : Type} [DecidableEq κ] (f : Nat → κ) : List Nat → List (κ × List Nat)
  | [] => []
  | s :: rest => insertByKey (f s) s (groupByKey f rest)

/-- Modelled from the spec: one refinement of a single block against the
splitter (the body of refinePartitionBasedOnSplitter, which is absent from
src/): split the block into sub-blocks of identical signature into the
splitter; if it actually splits, every resulting sub-block is marked as a
splitter. -/
def refineBlock (m : Model) (spl : List Nat) (b : Block) : List Block :=
  let groups := groupByKey (fun s => signature m s spl) b.states
  if groups.length ≤ 1 then [b]
  else groups.map (fun g => { states := g.2, splitter := true })

/-- Selection of the next splitter (source lines 242-247: sort the splitter
vector descending by state count and pop the back, i.e. remove a pending
splitter with the fewest states). -/
def minSplitter : List Block → Option Block
  | [] => none
  | b :: rest =>
    match minSplitter rest with
    | none => if b.splitter = true then some b else none
    | some c =>
      if b.splitter = true ∧ b.states.length < c.states.length then some b
      else some c

/-- Clear the splitter flag of (the first occurrence of) the chosen splitter
(source line 248: splitter->data().setSplitter(false)). -/
def clearFirst : List Block → Block → List Block
  | [], _ => []
  | b :: rest, spl =>
    if b = spl then { b with splitter := false } :: rest else b :: clearFirst rest spl

/-- One iteration of the refinement loop: clear the chosen splitter's flag,
then refine every block of the partition against it (source lines 239-252). -/
def refineStep (m : Model) (P : List Block) (spl : Block) : List Block :=
  (clearFirst P spl).flatMap (refineBlock m spl.states)

/-- The loop body as a total function (identity once no splitter is pending),
used to speak about the partition after k iterations. -/
def stepOnce (m : Model) (P : List Block) : List Block :=
  match minSplitter P with
  | none => P
  | some spl => refineStep m P spl

/-- The partition after k iterations of the refinement loop. -/
def iterSteps (m : Model) : Nat → List Block → List Block
  | 0, P => P
  | k + 1, P => iterSteps m k (stepOnce m P)

/-- The refinement loop (source lines 238-252), with explicit fuel: returns
the partition when the pending-splitter set becomes empty, none if the fuel
runs out first. -/
def refineLoop (m : Model) : Nat → List Block → Option (List Block)
  | 0, _ => none
  | fuel + 1, P =>
    match minSplitter P with
    | none => some P
    | some spl => refineLoop m fuel (refineStep m P spl)

/-- Source line 235: initially, every block of the initial partition is
marked as a (potential) splitter and put into the splitter vector. -/
def markAllSplitters (P : List Block) : List Block :=
  P.map (fun b => { b with splitter := true })

/-- BisimulationDecomposition::performPartitionRefinement (source lines
231-253). -/
def performPartitionRefinement (m : Model) (fuel : Nat) (P : List Block) :
    Option (List Block) :=
  refineLoop m fuel (markAllSplitters P)

/-- Modelled from the spec: Partition::splitStates (absent from src/) — the
per-label split of every block into the states satisfying the label and
those not. -/
def splitStates (sat : Nat → Bool) (P : List Block) : List Block :=
  P.flatMap (fun b => (groupByKey sat b.states).map
    (fun g => { states := g.2, splitter := b.splitter }))

/-- BisimulationDecomposition::splitInitialPartitionBasedOnStateRewards
(source lines 261-265): split every block by strict order on the state
reward, i.e. group each block's states by their reward value. -/
def splitInitialPartitionBasedOnStateRewards (m : Model) (P : List Block) : List Block :=
  let rew := m.uniqueRewardModel.stateRewards
  P.flatMap (fun b => (groupByKey rew b.states).map
    (fun g => { states := g.2, splitter := b.splitter }))

/-- BisimulationDecomposition::initializeLabelBasedPartition (source lines
267-283): start from one block of all states, split per respected label
(skipping "init"), then split by state rewards if rewards are kept. -/
def initLabelBasedPartition (m : Model) (opts : Options) : List Block :=
  let P0 : List Block := [{ states := List.range m.numberOfStates, splitter := false }]
  let respected := (opts.respectedAtomicPropositions.getD []).filter (fun l => l ≠ "init")
  let P1 := respected.foldl (fun P l => splitStates (m.labelSat l) P) P0
  if opts.keepRewards && m.hasRewardModel then
    splitInitialPartitionBasedOnStateRewards m P1
  else P1

/-- Does state s have a transition with non-zero probability into the set X
(restricted to the model's states)? -/
def existsSuccIn (m : Model) (X : Nat → Bool) (s : Nat) : Bool :=
  (List.range m.numberOfStates).any (fun t => X t && decide (m.trans s t ≠ 0))

/-- One backward step of the qualitative reachability fixpoint for
P(phi U psi) > 0. -/
def reachStep (m : Model) (phi psi : Nat → Bool) (X : Nat → Bool) : Nat → Bool :=
  fun s => psi s || (phi s && existsSuccIn m X s)

/-- Iterate a set transformer k times. -/
def iterateSets (f : (Nat → Bool) → (Nat → Bool)) : Nat → (Nat → Bool) → (Nat → Bool)
  | 0, X => X
  | k + 1, X => iterateSets f k (f X)

/-- States from which a psi-state is reachable along phi-states
(n iterations reach the fixpoint on n states). -/
def canReachPsiViaPhi (m : Model) (phi psi : Nat → Bool) : Nat → Bool :=
  iterateSets (reachStep m phi psi) m.numberOfStates (fun _ => false)

/-- Modelled from the spec: the probability-exactly-0 states of the
reachability objective phi U psi (getStatesWithProbability01 is declared but
its per-model implementation is absent from src/): the states that cannot
reach psi along phi. -/
def prob0States (m : Model) (phi psi : Nat → Bool) : List Nat :=
  (List.range m.numberOfStates).filter (fun s => !(canReachPsiViaPhi m phi psi s))

/-- States from which a probability-0 state is reachable along
(phi and not psi)-states. -/
def canReachProb0 (m : Model) (phi psi : Nat → Bool) : Nat → Bool :=
  let p0 : Nat → Bool := fun s => !(canReachPsiViaPhi m phi psi s)
  iterateSets
    (fun Y => fun s => p0 s || (phi s && !psi s && existsSuccIn m Y s))
    m.numberOfStates (fun _ => false)

/-- Modelled from the spec: the probability-exactly-1 states of the
reachability objective phi U psi: the states from which no probability-0
state is reachable along (phi and not psi)-states. -/
def prob1States (m : Model) (phi psi : Nat → Bool) : List Nat :=
  (List.range m.numberOfStates).filter (fun s => !(canReachProb0 m phi psi s))

/-- BisimulationDecomposition::getStatesWithProbability01. -/
def getStatesWithProbability01 (m : Model) (phi psi : Nat → Bool) :
    List Nat × List Nat :=
  (prob0States m phi psi, prob1States m phi psi)

/-- Membership test for a state list. -/
def memList (xs : List Nat) (s : Nat) : Bool := xs.contains s

/-- Modelled from the spec: the three-argument Partition constructor (absent
from src/) — "a three-way partition seeded from [the first set], [the second
set], and the remainder"; empty seeds produce no block. -/
def threeWayBlocks (n : Nat) (A B : List Nat) : List Block :=
  let a := (List.range n).filter (memList A)
  let b := (List.range n).filter (fun s => memList B s && !(memList A s))
  let c := (List.range n).filter (fun s => !(memList A s) && !(memList B s))
  ([a, b, c].filter (fun xs => !xs.isEmpty)).map
    (fun xs => { states := xs, splitter := false })

/-- The result of measure-driven initial-partition construction: the blocks
plus the designated representative psi-state. -/
structure MeasureDrivenPartition where
  blocks : List Block
  representativePsiState : Option Nat
  deriving DecidableEq

/-- BisimulationDecomposition::initializeMeasureDrivenPartition (source lines
285-301): compute the probability-0/1 states, pick the representative
psi-state (the first psi-state, if any), build the three-way partition from
the probability-0 states and — depending on bounded/keepRewards — the psi
or the probability-1 states, then split by state rewards if rewards are
kept. -/
def initMeasureDrivenPartition (m : Model) (opts : Options) : MeasureDrivenPartition :=
  let phiL := opts.phiStates.getD []
  let psiL := opts.psiStates.getD []
  let p01 := getStatesWithProbability01 m (memList phiL) (memList psiL)
  let rep : Option Nat := psiL.head?
  let second := if opts.bounded || opts.keepRewards then psiL else p01.2
  let P := threeWayBlocks m.numberOfStates p01.1 second
  let P2 := if opts.keepRewards && m.hasRewardModel then
      splitInitialPartitionBasedOnStateRewards m P
    else P
  { blocks := P2, representativePsiState := rep }

/-- The error conditions the engine signals (IllegalFunctionCallException /
InvalidOptionException). -/
inductive BisimError where
  | IllegalFunctionCall
  | InvalidOption
  deriving DecidableEq

/-- The state of a BisimulationDecomposition object: the model, the (fixed)
options, and — once computed — the final blocks and the quotient. -/
structure Decomp where
  model : Model
  options : Options
  finalBlocks : Option (List (List Nat))
  quotient : Option Model

/-- BisimulationDecomposition::BisimulationDecomposition (source lines
168-178): the three eager configuration checks, then fixing the respected
atomic propositions to all model labels when absent. -/
def mkBisimulationDecomposition (m : Model) (opts : Options) :
    Except BisimError Decomp :=
  if opts.keepRewards = true ∧ m.hasRewardModel = true ∧ m.hasUniqueRewardModel = false then
    .error .IllegalFunctionCall
  else if opts.keepRewards = true ∧ m.hasRewardModel = true ∧
      m.uniqueRewardModel.onlyStateRewards = false then
    .error .IllegalFunctionCall
  else if opts.type = BisimulationType.Weak ∧ opts.bounded = true then
    .error .IllegalFunctionCall
  else
    let fixedOpts :=
      match opts.respectedAtomicPropositions with
      | none => { opts with respectedAtomicPropositions := some m.labels }
      | some _ => opts
    .ok { model := m, options := fixedOpts, finalBlocks := none, quotient := none }

/-- Ascending sort of a block's states (partition.sortBlock before
extraction, source line 315). -/
def sortStates (xs : List Nat) : List Nat :=
  xs.insertionSort (· ≤ ·)

/-- BisimulationDecomposition::extractDecompositionBlocks (source lines
308-320): each block's states, sorted. -/
def extractDecompositionBlocks (P : List Block) : List (List Nat) :=
  P.map (fun b => sortStates b.states)

/-- Modelled from the spec: the quotient builder (buildQuotient is absent
from src/) — one state per block, transitions/labels/rewards taken from a
representative state of each block, same model kind. -/
def quotientOf (m : Model) (bs : List (List Nat)) : Model :=
  { numberOfStates := bs.length
    trans := fun i j => signature m ((bs.getD i []).headD 0) (bs.getD j [])
    labels := m.labels
    labelSat := fun l i => m.labelSat l ((bs.getD i []).headD 0)
    exprSat := fun e i => m.exprSat e ((bs.getD i []).headD 0)
    rewardModels := m.rewardModels.map
      (fun rm => { rm with stateRewards := fun i => rm.stateRewards ((bs.getD i []).headD 0) }) }

/-- The initial partition computeBisimulationDecomposition builds (source
lines 186-192). -/
def initialPartitionOf (d : Decomp) : List Block :=
  if d.options.measureDrivenInitialPartition then
    (initMeasureDrivenPartition d.model d.options).blocks
  else initLabelBasedPartition d.model d.options

/-- BisimulationDecomposition::computeBisimulationDecomposition (source lines
180-229): the phi/psi option checks, initial partition, refinement loop,
extraction, and optional quotient build.  The outer Option distinguishes
"still running" (fuel exhausted) from a finished run. -/
def computeBisimulationDecomposition (fuel : Nat) (d : Decomp) :
    Except BisimError (Option Decomp) :=
  if d.options.measureDrivenInitialPartition ∧ d.options.phiStates = none then
    .error .InvalidOption
  else if d.options.measureDrivenInitialPartition ∧ d.options.psiStates = none then
    .error .InvalidOption
  else
    match performPartitionRefinement d.model fuel (initialPartitionOf d) with
    | none => .ok none
    | some Pf =>
      let bs := extractDecompositionBlocks Pf
      .ok (some { d with
        finalBlocks := some bs
        quotient := if d.options.buildQuotient = true then some (quotientOf d.model bs) else none })

/-- BisimulationDecomposition::getQuotient (source lines 255-259). -/
def getQuotient (d : Decomp) : Except BisimError Model :=
  match d.quotient with
  | none => .error .IllegalFunctionCall
  | some q => .ok q

/-- The full decomposition pipeline: construct, then compute. -/
def decompose (fuel : Nat) (m : Model) (opts : Options) :
    Except BisimError (Option Decomp) :=
  match mkBisimulationDecomposition m opts with
  | .error e => .error e
  | .ok d => computeBisimulationDecomposition fuel d

/- ----------------------------------------------------------------- -/
/- Predicates used by the theorems                                    -/
/- ----------------------------------------------------------------- -/

/-- Stability of every block of P against the probe block C: all states of
one block place the same aggregated probability on C. -/
def StableInto (m : Model) (P : List Block) (C : Block) : Prop :=
  ∀ B ∈ P, ∀ s ∈ B.states, ∀ t ∈ B.states,
    signature m s C.states = signature m t C.states

/-- The refinement-loop invariant: every block is stable against every block
whose pending-splitter flag is cleared. -/
def RefInv (m : Model) (P : List Block) : Prop :=
  ∀ C ∈ P, C.splitter = false → StableInto m P C

/-- No block of P holds two states with different state rewards. -/
def rewardConstant (m : Model) (P : List Block) : Prop :=
  ∀ B ∈ P, ∀ s ∈ B.states, ∀ t ∈ B.states,
    m.uniqueRewardModel.stateRewards s = m.uniqueRewardModel.stateRewards t

/-- Membership in the respected-atomic-propositions set of an Options value
(std::set modelled as a list under membership). -/
def respMem (o : Options) (l : String) : Prop :=
  ∃ L, o.respectedAtomicPropositions = some L ∧ l ∈ L

/-- The C5 claim's reading of the measure-driven initial partition, following
the claim's words: "a three-way partition whose blocks are seeded from
phiStates, psiStates, and the remaining states". -/
def claimedMeasureDrivenBlocks (n : Nat) (phi psi : List Nat) : List Block :=
  threeWayBlocks n phi psi

/- ----------------------------------------------------------------- -/
/- Concrete inputs used by witnesses and counterexamples              -/
/- ----------------------------------------------------------------- -/

/-- A one-state model with a self loop, labelled "a". -/
def mW1 : Model :=
  { numberOfStates := 1
    trans := fun _ _ => 1
    labels := ["a"]
    labelSat := fun l _ => l == "a"
    exprSat := fun _ _ => false
    rewardModels := [] }

/-- A two-state chain: state 0 moves to state 1 with probability one, state 1
is absorbing and is the only state labelled "a". -/
def mW2 : Model :=
  { numberOfStates := 2
    trans := fun s t =>
      if s = 0 ∧ t = 1 then 1 else if s = 1 ∧ t = 1 then 1 else 0
    labels := ["a"]
    labelSat := fun l s => l == "a" && s == 1
    exprSat := fun _ _ => false
    rewardModels := [] }

/-- A three-state model: state 0 moves to the absorbing state 2, state 1 is
absorbing. -/
def mW3 : Model :=
  { numberOfStates := 3
    trans := fun s t =>
      if s = 0 ∧ t = 2 then 1
      else if s = 1 ∧ t = 1 then 1
      else if s = 2 ∧ t = 2 then 1 else 0
    labels := []
    labelSat := fun _ _ => false
    exprSat := fun _ _ => false
    rewardModels := [] }

/-- A two-state model with two reward models (illegal when rewards are
kept). -/
def mW4 : Model :=
  { numberOfStates := 2
    trans := fun _ _ => 0
    labels := []
    labelSat := fun _ _ => false
    exprSat := fun _ _ => false
    rewardModels := [⟨fun _ => 0, true⟩, ⟨fun _ => 1, true⟩] }

/-- A one-state model whose unique reward model carries transition
rewards. -/
def mW5 : Model :=
  { numberOfStates := 1
    trans := fun _ _ => 1
    labels := []
    labelSat := fun _ _ => false
    exprSat := fun _ _ => false
    rewardModels := [⟨fun _ => 0, false⟩] }

/-- A two-state model with distinct state rewards on the two states. -/
def mW6 : Model :=
  { numberOfStates := 2
    trans := fun s t =>
      if s = 0 ∧ t = 1 then 1 else if s = 1 ∧ t = 1 then 1 else 0
    labels := []
    labelSat := fun _ _ => false
    exprSat := fun _ _ => false
    rewardModels := [⟨fun s => if s = 0 then 1 else 2, true⟩] }

/-- Measure-driven options with phi = {1} and psi = {2}. -/
def oW3 : Options :=
  { Options.default0 with
      measureDrivenInitialPartition := true
      phiStates := some [1]
      psiStates := some [2] }

/-- Eventually "a" under a probability operator without direction or
bound. -/
def fW2 : Formula :=
  Formula.probOp none none (Formula.eventuallyF (Formula.atomicLabel "a"))

def dW0 : Decomp :=
  { model := mW1
    options := { Options.default0 with respectedAtomicPropositions := some mW1.labels }
    finalBlocks := none
    quotient := none }

def dW1 : Decomp :=
  { dW0 with finalBlocks := some [[0]], quotient := some (quotientOf mW1 [[0]]) }

def oNoQuotient : Options := { Options.default0 with buildQuotient := false }

def dW3 : Decomp :=
  { model := mW1
    options := { oNoQuotient with respectedAtomicPropositions := some mW1.labels }
    finalBlocks := none
    quotient := none }

def dW3f : Decomp := { dW3 with finalBlocks := some [[0]] }

def oWeakBounded : Options :=
  { Options.default0 with type := BisimulationType.Weak, bounded := true }

def oKeepW : Options := { Options.default0 with keepRewards := true }

def oMdW : Options := { Options.default0 with measureDrivenInitialPartition := true }

def subW : Formula := Formula.eventuallyF (Formula.atomicLabel "a")

def fW10 : Formula :=
  Formula.probOp (some OptimizationDirection.Maximize) none subW

def fsW : List Formula :=
  [Formula.rewardOp none none subW, Formula.atomicLabel "b"]

def PW : List Block :=
  [{ states := [0, 1], splitter := true }, { states := [2], splitter := true }]

def splW : Block := { states := [2], splitter := true }

/- ----------------------------------------------------------------- -/
/- Lemmas about grouping states by a key                              -/
/- ----------------------------------------------------------------- -/

theorem goodGroups_insertByKey {κ : Type} [DecidableEq κ] {f : Nat → κ} {ss : List Nat}
    {k : κ} {s : Nat} (hk : f s = k) :
    ∀ (L : List (κ × List Nat)),
      (∀ p ∈ L, ∀ x ∈ p.2, f x = p.1 ∧ x ∈ ss) →
      ∀ p ∈ insertByKey k s L, ∀ x ∈ p.2, f x = p.1 ∧ x ∈ s :: ss := by
  intro L
  induction L with
  | nil =>
    intro _ p hp x hx
    simp only [insertByKey, List.mem_singleton] at hp
    subst hp
    simp only [List.mem_singleton] at hx
    subst hx
    exact ⟨hk, List.mem_cons_self _ _⟩
  | cons q rest ih =>
    obtain ⟨k0, xs⟩ := q
    intro hL p hp x hx
    simp only [insertByKey] at hp
    split at hp
    next heq =>
      rcases List.mem_cons.mp hp with hp1 | hp2
      · subst hp1
        rcases List.mem_cons.mp hx with hx1 | hx2
        · subst hx1
          exact ⟨hk.trans heq.symm, List.mem_cons_self _ _⟩
        · have h := hL (k0, xs) (List.mem_cons_self _ _) x hx2
          exact ⟨h.1, List.mem_cons_of_mem _ h.2⟩
      · have h := hL p (List.mem_cons_of_mem _ hp2) x hx
        exact ⟨h.1, List.mem_cons_of_mem _ h.2⟩
    next =>
      rcases List.mem_cons.mp hp with hp1 | hp2
      · subst hp1
        have h := hL (k0, xs) (List.mem_cons_self _ _) x hx
        exact ⟨h.1, List.mem_cons_of_mem _ h.2⟩
      · exact ih (fun q hq y hy => hL q (List.mem_cons_of_mem _ hq) y hy) p hp2 x hx

theorem insertByKey_covers_new {κ : Type} [DecidableEq κ] (k : κ) (s : Nat) :
    ∀ (L : List (κ × List Nat)), ∃ p ∈ insertByKey k s L, s ∈ p.2 := by
  intro L
  induction L with
  | nil => exact ⟨(k, [s]), by simp [insertByKey]⟩
  | cons q rest ih =>
    obtain ⟨k0, xs⟩ := q
    simp only [insertByKey]
    split
    · exact ⟨(k0, s :: xs), List.mem_cons_self _ _, List.mem_cons_self _ _⟩
    · obtain ⟨p, hp, hs⟩ := ih
      exact ⟨p, List.mem_cons_of_mem _ hp, hs⟩

theorem insertByKey_covers_old {κ : Type} [DecidableEq κ] (k : κ) (s : Nat) {x : Nat} :
    ∀ (L : List (κ × List Nat)), (∃ p ∈ L, x ∈ p.2) →
      ∃ p ∈ insertByKey k s L, x ∈ p.2 := by
  intro L
  induction L with
  | nil => intro h; obtain ⟨p, hp, _⟩ := h; exact absurd hp (List.not_mem_nil p)
  | cons q rest ih =>
    obtain ⟨k0, xs⟩ := q
    intro h
    obtain ⟨p, hp, hx⟩ := h
    simp only [insertByKey]
    split
    · rcases List.mem_cons.mp hp with h1 | h2
      · subst h1
        exact ⟨(k0, s :: xs), List.mem_cons_self _ _, List.mem_cons_of_mem _ hx⟩
      · exact ⟨p, List.mem_cons_of_mem _ h2, hx⟩
    · rcases List.mem_cons.mp hp with h1 | h2
      · subst h1
        exact ⟨(k0, xs), List.mem_cons_self _ _, hx⟩
      · obtain ⟨r, hr, hxr⟩ := ih ⟨p, h2, hx⟩
        exact ⟨r, List.mem_cons_of_mem _ hr, hxr⟩

theorem groupByKey_key_mem {κ : Type} [DecidableEq κ] (f : Nat → κ) :
    ∀ (ss : List Nat), ∀ p ∈ groupByKey f ss, ∀ x ∈ p.2, f x = p.1 ∧ x ∈ ss := by
  intro ss
  induction ss with
  | nil => simp [groupByKey]
  | cons s rest ih =>
    simp only [groupByKey]
    exact goodGroups_insertByKey rfl (groupByKey f rest) ih

theorem groupByKey_covers {κ : Type} [DecidableEq κ] (f : Nat → κ) :
    ∀ (ss : List Nat), ∀ x ∈ ss, ∃ p ∈ groupByKey f ss, x ∈ p.2 := by
  intro ss
  induction ss with
  | nil => intro x hx; exact absurd hx (List.not_mem_nil x)
  | cons s rest ih =>
    intro x hx
    simp only [groupByKey]
    rcases List.mem_cons.mp hx with h1 | h2
    · subst h1
      exact insertByKey_covers_new _ _ _
    · exact insertByKey_covers_old _ _ _ (ih x h2)

theorem mem_eq_of_length_le_one {α : Type} {L : List α} (h : L.length ≤ 1) :
    ∀ p ∈ L, ∀ q ∈ L, p = q := by
  match L with
  | [] => simp
  | [a] => simp
  | a :: b :: t => simp at h

theorem groupByKey_single {κ : Type} [DecidableEq κ] (f : Nat → κ) (ss : List Nat)
    (h : (groupByKey f ss).length ≤ 1) : ∀ x ∈ ss, ∀ y ∈ ss, f x = f y := by
  intro x hx y hy
  obtain ⟨p, hp, hxp⟩ := groupByKey_covers f ss x hx
  obtain ⟨q, hq, hyq⟩ := groupByKey_covers f ss y hy
  have hpq := mem_eq_of_length_le_one h p hp q hq
  subst hpq
  have h1 := (groupByKey_key_mem f ss p hp x hxp).1
  have h2 := (groupByKey_key_mem f ss p hp y hyq).1
  rw [h1, h2]

/- ----------------------------------------------------------------- -/
/- Lemmas about one refinement step                                   -/
/- ----------------------------------------------------------------- -/

theorem refineBlock_states_subset (m : Model) (spl : List Nat) (b : Block) :
    ∀ B ∈ refineBlock m spl b, ∀ s ∈ B.states, s ∈ b.states := by
  intro B hB s hs
  simp only [refineBlock] at hB
  split at hB
  · simp only [List.mem_singleton] at hB
    subst hB
    exact hs
  · obtain ⟨g, hg, hgB⟩ := List.mem_map.mp hB
    subst hgB
    exact (groupByKey_key_mem _ b.states g hg s hs).2

theorem refineBlock_stable (m : Model) (spl : List Nat) (b : Block) :
    ∀ B ∈ refineBlock m spl b, ∀ s ∈ B.states, ∀ t ∈ B.states,
      signature m s spl = signature m t spl := by
  intro B hB s hs t ht
  simp only [refineBlock] at hB
  split at hB
  next hlen =>
    simp only [List.mem_singleton] at hB
    subst hB
    exact groupByKey_single _ _ hlen s hs t ht
  next =>
    obtain ⟨g, hg, hgB⟩ := List.mem_map.mp hB
    subst hgB
    have h1 := (groupByKey_key_mem (fun x => signature m x spl) b.states g hg s hs).1
    have h2 := (groupByKey_key_mem (fun x => signature m x spl) b.states g hg t ht).1
    simp only at h1 h2
    rw [h1, h2]

theorem refineBlock_flag_false (m : Model) (spl : List Nat) (b : Block) :
    ∀ B ∈ refineBlock m spl b, B.splitter = false → B = b := by
  intro B hB hflag
  simp only [refineBlock] at hB
  split at hB
  · simpa using hB
  · obtain ⟨g, _, hgB⟩ := List.mem_map.mp hB
    subst hgB
    simp at hflag

theorem clearFirst_mem {spl : Block} :
    ∀ {P : List Block} {c : Block}, c ∈ clearFirst P spl →
      c ∈ P ∨ (spl ∈ P ∧ c = { spl with splitter := false }) := by
  intro P
  induction P with
  | nil => intro c hc; simp [clearFirst] at hc
  | cons b rest ih =>
    intro c hc
    simp only [clearFirst] at hc
    split at hc
    next heq =>
      rcases List.mem_cons.mp hc with h1 | h2
      · right
        refine ⟨heq ▸ List.mem_cons_self _ _, ?_⟩
        rw [h1, heq]
      · left
        exact List.mem_cons_of_mem _ h2
    next =>
      rcases List.mem_cons.mp hc with h1 | h2
      · left
        exact h1 ▸ List.mem_cons_self _ _
      · rcases ih h2 with h | ⟨hs, he⟩
        · left; exact List.mem_cons_of_mem _ h
        · right; exact ⟨List.mem_cons_of_mem _ hs, he⟩

theorem clearFirst_cleared_mem {spl : Block} :
    ∀ {P : List Block}, spl ∈ P → { spl with splitter := false } ∈ clearFirst P spl := by
  intro P
  induction P with
  | nil => intro h; exact absurd h (List.not_mem_nil spl)
  | cons b rest ih =>
    intro h
    simp only [clearFirst]
    split
    next heq =>
      subst heq
      exact List.mem_cons_self _ _
    next hne =>
      rcases List.mem_cons.mp h with h1 | h2
      · exact absurd h1.symm hne
      · exact List.mem_cons_of_mem _ (ih h2)

theorem minSplitter_none :
    ∀ {P : List Block}, minSplitter P = none → ∀ b ∈ P, b.splitter = false := by
  intro P
  induction P with
  | nil => intro _ b hb; exact absurd hb (List.not_mem_nil b)
  | cons b rest ih =>
    intro h c hc
    simp only [minSplitter] at h
    cases hrest : minSplitter rest with
    | none =>
      rw [hrest] at h
      by_cases hb : b.splitter = true
      · rw [if_pos hb] at h
        cases h
      · rw [if_neg hb] at h
        rcases List.mem_cons.mp hc with h1 | h2
        · subst h1
          exact Bool.eq_false_iff.mpr hb
        · exact ih hrest c h2
    | some d =>
      rw [hrest] at h
      dsimp only at h
      by_cases hcond : b.splitter = true ∧ b.states.length < d.states.length
      · rw [if_pos hcond] at h
        cases h
      · rw [if_neg hcond] at h
        cases h

theorem minSplitter_spec :
    ∀ {P : List Block} {spl : Block}, minSplitter P = some spl →
      spl ∈ P ∧ spl.splitter = true ∧
        ∀ b ∈ P, b.splitter = true → spl.states.length ≤ b.states.length := by
  intro P
  induction P with
  | nil => intro spl h; simp [minSplitter] at h
  | cons b rest ih =>
    intro spl h
    simp only [minSplitter] at h
    cases hrest : minSplitter rest with
    | none =>
      rw [hrest] at h
      by_cases hb : b.splitter = true
      · rw [if_pos hb] at h
        cases h
        refine ⟨List.mem_cons_self _ _, hb, ?_⟩
        intro c hc hcs
        rcases List.mem_cons.mp hc with h1 | h2
        · subst h1; exact le_refl _
        · rw [minSplitter_none hrest c h2] at hcs
          cases hcs
      · rw [if_neg hb] at h
        cases h
    | some c =>
      rw [hrest] at h
      dsimp only at h
      obtain ⟨hcP, hcs, hcmin⟩ := ih hrest
      by_cases hcond : b.splitter = true ∧ b.states.length < c.states.length
      · rw [if_pos hcond] at h
        cases h
        refine ⟨List.mem_cons_self _ _, hcond.1, ?_⟩
        intro d hd hds
        rcases List.mem_cons.mp hd with h1 | h2
        · subst h1; exact le_refl _
        · exact le_trans (le_of_lt hcond.2) (hcmin d h2 hds)
      · rw [if_neg hcond] at h
        have hsc : c = spl := Option.some.inj h
        subst hsc
        refine ⟨List.mem_cons_of_mem _ hcP, hcs, ?_⟩
        intro d hd hds
        rcases List.mem_cons.mp hd with h1 | h2
        · subst h1
          by_cases hlen : d.states.length < c.states.length
          · exact absurd ⟨hds, hlen⟩ hcond
          · exact le_of_not_lt hlen
        · exact hcmin d h2 hds

/- ----------------------------------------------------------------- -/
/- The refinement-loop invariant                                      -/
/- ----------------------------------------------------------------- -/

theorem refInv_step (m : Model) {P : List Block} {spl : Block}
    (hinv : RefInv m P) (hmin : minSplitter P = some spl) :
    RefInv m (refineStep m P spl) := by
  obtain ⟨hsplP, _, _⟩ := minSplitter_spec hmin
  intro C hC hCflag
  simp only [refineStep] at hC
  obtain ⟨b, hb, hCb⟩ := List.mem_flatMap.mp hC
  have hCeqb := refineBlock_flag_false m spl.states b C hCb hCflag
  subst hCeqb
  intro B hB s hs t ht
  simp only [refineStep] at hB
  obtain ⟨b', hb', hBb'⟩ := List.mem_flatMap.mp hB
  have hsub := refineBlock_states_subset m spl.states b' B hBb'
  rcases clearFirst_mem hb with hbP | ⟨_, hbcl⟩
  · have hst : StableInto m P C := hinv C hbP hCflag
    rcases clearFirst_mem hb' with hb'P | ⟨hsplP', hb'cl⟩
    · exact hst b' hb'P s (hsub s hs) t (hsub t ht)
    · have hbst : b'.states = spl.states := by rw [hb'cl]
      exact hst spl hsplP' s (hbst ▸ hsub s hs) t (hbst ▸ hsub t ht)
  · have hCst : C.states = spl.states := by rw [hbcl]
    rw [hCst]
    exact refineBlock_stable m spl.states b' B hBb' s hs t ht

theorem refInv_markAll (m : Model) (P : List Block) :
    RefInv m (markAllSplitters P) := by
  intro C hC hCflag
  simp only [markAllSplitters] at hC
  obtain ⟨b, _, hbC⟩ := List.mem_map.mp hC
  rw [← hbC] at hCflag
  simp at hCflag

theorem refInv_loop (m : Model) :
    ∀ (fuel : Nat) (P Pf : List Block), RefInv m P →
      refineLoop m fuel P = some Pf → RefInv m Pf := by
  intro fuel
  induction fuel with
  | zero => intro P Pf _ h; cases h
  | succ n ih =>
    intro P Pf hinv h
    simp only [refineLoop] at h
    cases hmin : minSplitter P with
    | none =>
      rw [hmin] at h
      cases h
      exact hinv
    | some spl =>
      rw [hmin] at h
      exact ih _ _ (refInv_step m hinv hmin) h

theorem refineLoop_finished (m : Model) :
    ∀ (fuel : Nat) (P Pf : List Block),
      refineLoop m fuel P = some Pf → minSplitter Pf = none := by
  intro fuel
  induction fuel with
  | zero => intro P Pf h; cases h
  | succ n ih =>
    intro P Pf h
    simp only [refineLoop] at h
    cases hmin : minSplitter P with
    | none =>
      rw [hmin] at h
      cases h
      exact hmin
    | some spl =>
      rw [hmin] at h
      exact ih _ _ h

/-- Stability of the partition the refinement loop returns: every pair of
states in one block has equal aggregated probability into every block. -/
theorem performPartitionRefinement_stable (m : Model) (fuel : Nat)
    (P Pf : List Block) (h : performPartitionRefinement m fuel P = some Pf) :
    ∀ B ∈ Pf, ∀ s ∈ B.states, ∀ t ∈ B.states, ∀ C ∈ Pf,
      signature m s C.states = signature m t C.states := by
  have hinv := refInv_loop m fuel (markAllSplitters P) Pf (refInv_markAll m P) h
  have hnone := refineLoop_finished m fuel (markAllSplitters P) Pf h
  intro B hB s hs t ht C hC
  exact hinv C hC (minSplitter_none hnone C hC) B hB s hs t ht

/- ----------------------------------------------------------------- -/
/- Transfer through extraction and the pipeline                       -/
/- ----------------------------------------------------------------- -/

theorem signature_perm (m : Model) (s : Nat) {xs ys : List Nat} (h : xs.Perm ys) :
    signature m s xs = signature m s ys :=
  List.Perm.sum_eq (h.map (m.trans s))

theorem sortStates_perm (xs : List Nat) : (sortStates xs).Perm xs :=
  List.perm_insertionSort _ xs

theorem mem_sortStates {xs : List Nat} {s : Nat} : s ∈ sortStates xs ↔ s ∈ xs :=
  (sortStates_perm xs).mem_iff

theorem computeBisim_ok_some {fuel : Nat} {d d' : Decomp}
    (h : computeBisimulationDecomposition fuel d = .ok (some d')) :
    d'.model = d.model ∧ ∃ Pf,
      performPartitionRefinement d.model fuel (initialPartitionOf d) = some Pf ∧
      d'.finalBlocks = some (extractDecompositionBlocks Pf) ∧
      d'.quotient = (if d.options.buildQuotient = true then
        some (quotientOf d.model (extractDecompositionBlocks Pf)) else none) := by
  unfold computeBisimulationDecomposition at h
  split at h
  · cases h
  · split at h
    · cases h
    · cases hp : performPartitionRefinement d.model fuel (initialPartitionOf d) with
      | none =>
        rw [hp] at h
        dsimp only at h
        simp at h
      | some Pf =>
        rw [hp] at h
        dsimp only at h
        have hd := Option.some.inj (Except.ok.inj h)
        subst hd
        exact ⟨rfl, Pf, rfl, rfl, rfl⟩

theorem mkBisim_ok {m : Model} {opts : Options} {d : Decomp}
    (h : mkBisimulationDecomposition m opts = .ok d) :
    d.model = m ∧ d.quotient = none ∧ d.finalBlocks = none ∧
    d.options.measureDrivenInitialPartition = opts.measureDrivenInitialPartition ∧
    d.options.phiStates = opts.phiStates ∧ d.options.psiStates = opts.psiStates ∧
    d.options.keepRewards = opts.keepRewards ∧ d.options.bounded = opts.bounded ∧
    d.options.buildQuotient = opts.buildQuotient := by
  unfold mkBisimulationDecomposition at h
  split at h
  · cases h
  · split at h
    · cases h
    · split at h
      · cases h
      · cases hro : opts.respectedAtomicPropositions with
        | none =>
          rw [hro] at h
          dsimp only at h
          have hd := Except.ok.inj h
          subst hd
          exact ⟨rfl, rfl, rfl, rfl, rfl, rfl, rfl, rfl, rfl⟩
        | some L =>
          rw [hro] at h
          dsimp only at h
          have hd := Except.ok.inj h
          subst hd
          exact ⟨rfl, rfl, rfl, rfl, rfl, rfl, rfl, rfl, rfl⟩

/-- Claim C1: after the decomposition has been computed, for every pair of
states s and t assigned to the same block of the final partition and for
every block B of that partition, the aggregated transition probability from
s into B equals, exactly, the aggregated transition probability from t
into B. -/
theorem stability_after_decompose (fuel : Nat) (m : Model) (opts : Options)
    (d : Decomp) (bs : List (List Nat))
    (hdec : decompose fuel m opts = Except.ok (some d))
    (hbs : d.finalBlocks = some bs) :
    ∀ B ∈ bs, ∀ s ∈ B, ∀ t ∈ B, ∀ C ∈ bs,
      signature m s C = signature m t C := by
  unfold decompose at hdec
  cases hmk : mkBisimulationDecomposition m opts with
  | error e =>
    rw [hmk] at hdec
    cases hdec
  | ok d0 =>
    rw [hmk] at hdec
    dsimp only at hdec
    obtain ⟨_, Pf, hPf, hfb, _⟩ := computeBisim_ok_some hdec
    rw [(mkBisim_ok hmk).1] at hPf
    have hstab := performPartitionRefinement_stable m fuel _ Pf hPf
    rw [hbs] at hfb
    have hbs' : bs = extractDecompositionBlocks Pf := Option.some.inj hfb
    subst hbs'
    intro B hB s hs t ht C hC
    obtain ⟨b, hb, hBb⟩ := List.mem_map.mp hB
    obtain ⟨c, hc, hCc⟩ := List.mem_map.mp hC
    subst hBb
    subst hCc
    have hs' : s ∈ b.states := mem_sortStates.mp hs
    have ht' : t ∈ b.states := mem_sortStates.mp ht
    calc signature m s (sortStates c.states)
        = signature m s c.states := signature_perm m s (sortStates_perm _)
      _ = signature m t c.states := hstab b hb s hs' t ht' c hc
      _ = signature m t (sortStates c.states) :=
          (signature_perm m t (sortStates_perm _)).symm

/- ----------------------------------------------------------------- -/
/- Reward constancy of blocks (C9)                                    -/
/- ----------------------------------------------------------------- -/

theorem splitByRewards_rewardConstant (m : Model) (P : List Block) :
    rewardConstant m (splitInitialPartitionBasedOnStateRewards m P) := by
  intro B hB s hs t ht
  simp only [splitInitialPartitionBasedOnStateRewards] at hB
  obtain ⟨b, _, hBb⟩ := List.mem_flatMap.mp hB
  obtain ⟨g, hg, hgB⟩ := List.mem_map.mp hBb
  subst hgB
  have h1 := (groupByKey_key_mem m.uniqueRewardModel.stateRewards b.states g hg s hs).1
  have h2 := (groupByKey_key_mem m.uniqueRewardModel.stateRewards b.states g hg t ht).1
  rw [h1, h2]

theorem rewardConstant_of_subset {m : Model} {P Q : List Block}
    (h : ∀ B ∈ Q, ∃ b ∈ P, ∀ s ∈ B.states, s ∈ b.states)
    (hP : rewardConstant m P) : rewardConstant m Q := by
  intro B hB s hs t ht
  obtain ⟨b, hb, hsub⟩ := h B hB
  exact hP b hb s (hsub s hs) t (hsub t ht)

theorem refineStep_states_subset (m : Model) (P : List Block) (spl : Block) :
    ∀ B ∈ refineStep m P spl, ∃ b ∈ P, ∀ s ∈ B.states, s ∈ b.states := by
  intro B hB
  simp only [refineStep] at hB
  obtain ⟨b', hb', hBb'⟩ := List.mem_flatMap.mp hB
  have hsub := refineBlock_states_subset m spl.states b' B hBb'
  rcases clearFirst_mem hb' with hb'P | ⟨hsplP, hb'cl⟩
  · exact ⟨b', hb'P, hsub⟩
  · refine ⟨spl, hsplP, fun s hs => ?_⟩
    have : b'.states = spl.states := by rw [hb'cl]
    exact this ▸ hsub s hs

theorem stepOnce_states_subset (m : Model) (P : List Block) :
    ∀ B ∈ stepOnce m P, ∃ b ∈ P, ∀ s ∈ B.states, s ∈ b.states := by
  intro B hB
  unfold stepOnce at hB
  cases hmin : minSplitter P with
  | none =>
    rw [hmin] at hB
    exact ⟨B, hB, fun s hs => hs⟩
  | some spl =>
    rw [hmin] at hB
    exact refineStep_states_subset m P spl B hB

theorem markAllSplitters_states_subset (P : List Block) :
    ∀ B ∈ markAllSplitters P, ∃ b ∈ P, ∀ s ∈ B.states, s ∈ b.states := by
  intro B hB
  simp only [markAllSplitters] at hB
  obtain ⟨b, hb, hbB⟩ := List.mem_map.mp hB
  subst hbB
  exact ⟨b, hb, fun s hs => hs⟩

theorem iterSteps_rewardConstant (m : Model) :
    ∀ (k : Nat) (P : List Block), rewardConstant m P →
      rewardConstant m (iterSteps m k P) := by
  intro k
  induction k with
  | zero => intro P h; exact h
  | succ n ih =>
    intro P h
    exact ih _ (rewardConstant_of_subset (stepOnce_states_subset m P) h)

theorem refineLoop_rewardConstant (m : Model) :
    ∀ (fuel : Nat) (P Pf : List Block), rewardConstant m P →
      refineLoop m fuel P = some Pf → rewardConstant m Pf := by
  intro fuel
  induction fuel with
  | zero => intro P Pf _ h; cases h
  | succ n ih =>
    intro P Pf hrc h
    simp only [refineLoop] at h
    cases hmin : minSplitter P with
    | none =>
      rw [hmin] at h
      cases h
      exact hrc
    | some spl =>
      rw [hmin] at h
      exact ih _ _ (rewardConstant_of_subset (refineStep_states_subset m P spl) hrc) h

theorem initialPartition_rewardConstant (d : Decomp)
    (hk : d.options.keepRewards = true) (hr : d.model.hasRewardModel = true) :
    rewardConstant d.model (initialPartitionOf d) := by
  unfold initialPartitionOf
  split
  · unfold initMeasureDrivenPartition
    dsimp only
    rw [hk, hr]
    simp only [Bool.and_self, if_true]
    exact splitByRewards_rewardConstant _ _
  · unfold initLabelBasedPartition
    dsimp only
    rw [hk, hr]
    simp only [Bool.and_self, if_true]
    exact splitByRewards_rewardConstant _ _

/-- Claim C9: if keepRewards is true and the model has a reward model, then
from the initial partition onward, through every refinement step, to the
final decomposition blocks, no block ever contains two states with different
state-reward values. -/
theorem rewards_never_mixed (m : Model) (opts : Options)
    (hk : opts.keepRewards = true) (hr : m.hasRewardModel = true) :
    (∀ k, rewardConstant m (iterSteps m k (markAllSplitters
      (initialPartitionOf { model := m, options := opts, finalBlocks := none, quotient := none })))) ∧
    (∀ fuel d' bs,
      computeBisimulationDecomposition fuel
          { model := m, options := opts, finalBlocks := none, quotient := none } =
        .ok (some d') →
      d'.finalBlocks = some bs →
      ∀ B ∈ bs, ∀ s ∈ B, ∀ t ∈ B,
        m.uniqueRewardModel.stateRewards s = m.uniqueRewardModel.stateRewards t) := by
  have hinit : rewardConstant m
      (initialPartitionOf { model := m, options := opts, finalBlocks := none, quotient := none }) :=
    initialPartition_rewardConstant _ hk hr
  constructor
  · intro k
    exact iterSteps_rewardConstant m k _
      (rewardConstant_of_subset (markAllSplitters_states_subset _) hinit)
  · intro fuel d' bs hcomp hfb
    obtain ⟨_, Pf, hPf, hfb', _⟩ := computeBisim_ok_some hcomp
    have hrc := refineLoop_rewardConstant m fuel _ Pf
      (rewardConstant_of_subset (markAllSplitters_states_subset _) hinit) hPf
    rw [hfb] at hfb'
    have hbs : bs = extractDecompositionBlocks Pf := Option.some.inj hfb'
    subst hbs
    intro B hB s hs t ht
    obtain ⟨b, hb, hBb⟩ := List.mem_map.mp hB
    subst hBb
    exact hrc b hb s (mem_sortStates.mp hs) t (mem_sortStates.mp ht)

/-- Claim C2: every incompatible option combination — weak + bounded,
keepRewards with more than one reward model, keepRewards with transition
rewards in the unique reward model, and measure-driven without phi or psi —
makes the decomposition pipeline fail with a hard error, for every amount of
refinement fuel, i.e. before any refinement step executes, and with no
partial result. -/
theorem config_errors_abort (fuel : Nat) (m : Model) (opts : Options) :
    (opts.type = BisimulationType.Weak ∧ opts.bounded = true →
      ∃ e, decompose fuel m opts = .error e) ∧
    (opts.keepRewards = true ∧ 1 < m.rewardModels.length →
      ∃ e, decompose fuel m opts = .error e) ∧
    (opts.keepRewards = true ∧ m.rewardModels.length = 1 ∧
        m.uniqueRewardModel.onlyStateRewards = false →
      ∃ e, decompose fuel m opts = .error e) ∧
    (opts.measureDrivenInitialPartition = true ∧
        (opts.phiStates = none ∨ opts.psiStates = none) →
      ∃ e, decompose fuel m opts = .error e) := by
  have herr : ∀ e, mkBisimulationDecomposition m opts = .error e →
      decompose fuel m opts = .error e := by
    intro e hmk
    unfold decompose
    rw [hmk]
  have hmk3 : ∀ (hc : opts.type = BisimulationType.Weak ∧ opts.bounded = true),
      ∃ e, mkBisimulationDecomposition m opts = .error e := by
    intro hc
    unfold mkBisimulationDecomposition
    by_cases h1 : opts.keepRewards = true ∧ m.hasRewardModel = true ∧
        m.hasUniqueRewardModel = false
    · exact ⟨_, by rw [if_pos h1]⟩
    · rw [if_neg h1]
      by_cases h2 : opts.keepRewards = true ∧ m.hasRewardModel = true ∧
          m.uniqueRewardModel.onlyStateRewards = false
      · exact ⟨_, by rw [if_pos h2]⟩
      · rw [if_neg h2, if_pos hc]
        exact ⟨_, rfl⟩
  refine ⟨?_, ?_, ?_, ?_⟩
  · intro hc
    obtain ⟨e, he⟩ := hmk3 hc
    exact ⟨e, herr e he⟩
  · rintro ⟨hk, hlen⟩
    have hne : m.rewardModels ≠ [] := by
      intro he
      rw [he] at hlen
      simp at hlen
    have hcond : opts.keepRewards = true ∧ m.hasRewardModel = true ∧
        m.hasUniqueRewardModel = false := by
      refine ⟨hk, ?_, ?_⟩
      · simp [Model.hasRewardModel, List.isEmpty_iff, hne]
      · simp only [Model.hasUniqueRewardModel, beq_eq_false_iff_ne, ne_eq]
        omega
    refine ⟨BisimError.IllegalFunctionCall, herr _ ?_⟩
    unfold mkBisimulationDecomposition
    rw [if_pos hcond]
  · rintro ⟨hk, hlen, hts⟩
    have h1 : ¬(opts.keepRewards = true ∧ m.hasRewardModel = true ∧
        m.hasUniqueRewardModel = false) := by
      rintro ⟨-, -, hu⟩
      rw [Model.hasUniqueRewardModel, hlen] at hu
      simp at hu
    have hcond : opts.keepRewards = true ∧ m.hasRewardModel = true ∧
        m.uniqueRewardModel.onlyStateRewards = false := by
      refine ⟨hk, ?_, hts⟩
      have hne : m.rewardModels ≠ [] := by
        intro he
        rw [he] at hlen
        simp at hlen
      simp [Model.hasRewardModel, List.isEmpty_iff, hne]
    refine ⟨BisimError.IllegalFunctionCall, herr _ ?_⟩
    unfold mkBisimulationDecomposition
    rw [if_neg h1, if_pos hcond]
  · rintro ⟨hmd, hphipsi⟩
    cases hmk : mkBisimulationDecomposition m opts with
    | error e => exact ⟨e, herr e hmk⟩
    | ok d =>
      obtain ⟨-, -, -, hdmd, hdphi, hdpsi, -, -, -⟩ := mkBisim_ok hmk
      refine ⟨BisimError.InvalidOption, ?_⟩
      unfold decompose
      rw [hmk]
      dsimp only
      unfold computeBisimulationDecomposition
      by_cases hfirst : d.options.measureDrivenInitialPartition = true ∧
          d.options.phiStates = none
      · rw [if_pos hfirst]
      · rw [if_neg hfirst]
        have hsecond : d.options.measureDrivenInitialPartition = true ∧
            d.options.psiStates = none := by
          refine ⟨hdmd.trans hmd, ?_⟩
          rcases hphipsi with hphi | hpsi
          · exact absurd ⟨hdmd.trans hmd, hdphi.trans hphi⟩ hfirst
          · exact hdpsi.trans hpsi
        rw [if_pos hsecond]

/-- Claim C3: getQuotient signals a hard invalid-state failure exactly while
no quotient is stored — in particular on a freshly constructed decomposition
and after a run with buildQuotient unset — and returns the quotient model
once it was built. -/
theorem getQuotient_spec (d0 : Decomp) (m : Model) (opts : Options) (fuel : Nat) :
    (d0.quotient = none → getQuotient d0 = .error .IllegalFunctionCall) ∧
    (∀ q, d0.quotient = some q → getQuotient d0 = .ok q) ∧
    (∀ d, mkBisimulationDecomposition m opts = .ok d →
      getQuotient d = .error .IllegalFunctionCall) ∧
    (∀ d d', computeBisimulationDecomposition fuel d = .ok (some d') →
      d.options.buildQuotient = false →
      getQuotient d' = .error .IllegalFunctionCall) ∧
    (∀ d d', computeBisimulationDecomposition fuel d = .ok (some d') →
      d.options.buildQuotient = true → ∃ q, getQuotient d' = .ok q) := by
  refine ⟨?_, ?_, ?_, ?_, ?_⟩
  · intro h
    unfold getQuotient
    rw [h]
  · intro q h
    unfold getQuotient
    rw [h]
  · intro d hmk
    have hq := (mkBisim_ok hmk).2.1
    unfold getQuotient
    rw [hq]
  · intro d d' hcomp hbq
    obtain ⟨-, Pf, -, -, hquot⟩ := computeBisim_ok_some hcomp
    rw [hbq] at hquot
    simp only [Bool.false_eq_true, if_false] at hquot
    unfold getQuotient
    rw [hquot]
  · intro d d' hcomp hbq
    obtain ⟨-, Pf, -, -, hquot⟩ := computeBisim_ok_some hcomp
    rw [hbq] at hquot
    simp only [if_true] at hquot
    refine ⟨quotientOf d.model (extractDecompositionBlocks Pf), ?_⟩
    unfold getQuotient
    rw [hquot]

theorem mdPath_opt_of_md (o1 : Options) (m : Model) (nf : Formula)
    (h : (o1.measureDrivenFromPath m nf).measureDrivenInitialPartition = true) :
    (o1.measureDrivenFromPath m nf).optimalityType = o1.optimalityType := by
  cases nf
  case untilF l r =>
    by_cases hp : l.isPropositional = true ∧ r.isPropositional = true
    · simp [Options.measureDrivenFromPath, hp]
    · by_cases hmd : o1.measureDrivenInitialPartition = true
      · simp [Options.measureDrivenFromPath, hp, hmd]
      · simp [Options.measureDrivenFromPath, hp, hmd] at h
  case eventuallyF r =>
    by_cases hp : r.isPropositional = true
    · simp [Options.measureDrivenFromPath, hp]
    · by_cases hmd : o1.measureDrivenInitialPartition = true
      · simp [Options.measureDrivenFromPath, hp, hmd]
      · simp [Options.measureDrivenFromPath, hp, hmd] at h
  all_goals
    first
    | (by_cases hmd : o1.measureDrivenInitialPartition = true
       · simp [Options.measureDrivenFromPath, hmd]
       · simp [Options.measureDrivenFromPath, hmd] at h)

theorem mdPath_opt_of_not_md (o1 : Options) (m : Model) (nf : Formula)
    (h : (o1.measureDrivenFromPath m nf).measureDrivenInitialPartition = false) :
    (o1.measureDrivenFromPath m nf).optimalityType = none := by
  cases nf
  case untilF l r =>
    by_cases hp : l.isPropositional = true ∧ r.isPropositional = true
    · simp [Options.measureDrivenFromPath, hp] at h
    · by_cases hmd : o1.measureDrivenInitialPartition = true
      · simp [Options.measureDrivenFromPath, hp, hmd] at h
      · simp [Options.measureDrivenFromPath, hp, hmd]
  case eventuallyF r =>
    by_cases hp : r.isPropositional = true
    · simp [Options.measureDrivenFromPath, hp] at h
    · by_cases hmd : o1.measureDrivenInitialPartition = true
      · simp [Options.measureDrivenFromPath, hp, hmd] at h
      · simp [Options.measureDrivenFromPath, hp, hmd]
  all_goals
    first
    | (by_cases hmd : o1.measureDrivenInitialPartition = true
       · simp [Options.measureDrivenFromPath, hmd] at h
       · simp [Options.measureDrivenFromPath, hmd])

theorem preserveSingle_opt_none_of_not_md (o : Options) (m : Model) (f : Formula)
    (h : (o.preserveSingleFormula m f).measureDrivenInitialPartition = false) :
    (o.preserveSingleFormula m f).optimalityType = none :=
  mdPath_opt_of_not_md _ m _ h

theorem checkAndSet_bound_prob (o : Options) (m : Model) (sub : Formula)
    (cmp : ComparisonType)
    (h : (o.checkAndSetMeasureDrivenInitialPartition m
        (.probOp none (some cmp) sub)).measureDrivenInitialPartition = true) :
    (o.checkAndSetMeasureDrivenInitialPartition m
        (.probOp none (some cmp) sub)).optimalityType =
      some (if cmp = ComparisonType.Less ∨ cmp = ComparisonType.LessEqual
        then OptimizationDirection.Maximize else OptimizationDirection.Minimize) := by
  have h2 : o.checkAndSetMeasureDrivenInitialPartition m (.probOp none (some cmp) sub) =
      Options.measureDrivenFromPath { o with optimalityType := some (if cmp = ComparisonType.Less ∨ cmp = ComparisonType.LessEqual then OptimizationDirection.Maximize else OptimizationDirection.Minimize) } m sub := by
    by_cases hc : cmp = ComparisonType.Less ∨ cmp = ComparisonType.LessEqual
    · simp [Options.checkAndSetMeasureDrivenInitialPartition,
        Options.setOptimalityFromOperator, hc]
    · simp [Options.checkAndSetMeasureDrivenInitialPartition,
        Options.setOptimalityFromOperator, hc]
  rw [h2] at h ⊢
  rw [mdPath_opt_of_md _ _ _ h]

theorem checkAndSet_bound_reward (o : Options) (m : Model) (sub : Formula)
    (cmp : ComparisonType)
    (h : (o.checkAndSetMeasureDrivenInitialPartition m
        (.rewardOp none (some cmp) sub)).measureDrivenInitialPartition = true) :
    (o.checkAndSetMeasureDrivenInitialPartition m
        (.rewardOp none (some cmp) sub)).optimalityType =
      some (if cmp = ComparisonType.Less ∨ cmp = ComparisonType.LessEqual
        then OptimizationDirection.Maximize else OptimizationDirection.Minimize) := by
  have h2 : o.checkAndSetMeasureDrivenInitialPartition m (.rewardOp none (some cmp) sub) =
      Options.measureDrivenFromPath { o with optimalityType := some (if cmp = ComparisonType.Less ∨ cmp = ComparisonType.LessEqual then OptimizationDirection.Maximize else OptimizationDirection.Minimize) } m sub := by
    by_cases hc : cmp = ComparisonType.Less ∨ cmp = ComparisonType.LessEqual
    · simp [Options.checkAndSetMeasureDrivenInitialPartition,
        Options.setOptimalityFromOperator, hc]
    · simp [Options.checkAndSetMeasureDrivenInitialPartition,
        Options.setOptimalityFromOperator, hc]
  rw [h2] at h ⊢
  rw [mdPath_opt_of_md _ _ _ h]

theorem checkAndSet_explicit_prob (o : Options) (m : Model) (sub : Formula)
    (d : OptimizationDirection) (cmp : Option ComparisonType)
    (h : (o.checkAndSetMeasureDrivenInitialPartition m
        (.probOp (some d) cmp sub)).measureDrivenInitialPartition = true) :
    (o.checkAndSetMeasureDrivenInitialPartition m
        (.probOp (some d) cmp sub)).optimalityType = some d := by
  have h2 : o.checkAndSetMeasureDrivenInitialPartition m (.probOp (some d) cmp sub) =
      Options.measureDrivenFromPath { o with optimalityType := some d } m sub := by
    simp [Options.checkAndSetMeasureDrivenInitialPartition,
      Options.setOptimalityFromOperator]
  rw [h2] at h ⊢
  rw [mdPath_opt_of_md _ _ _ h]

theorem checkAndSet_explicit_reward (o : Options) (m : Model) (sub : Formula)
    (d : OptimizationDirection) (cmp : Option ComparisonType)
    (h : (o.checkAndSetMeasureDrivenInitialPartition m
        (.rewardOp (some d) cmp sub)).measureDrivenInitialPartition = true) :
    (o.checkAndSetMeasureDrivenInitialPartition m
        (.rewardOp (some d) cmp sub)).optimalityType = some d := by
  have h2 : o.checkAndSetMeasureDrivenInitialPartition m (.rewardOp (some d) cmp sub) =
      Options.measureDrivenFromPath { o with optimalityType := some d } m sub := by
    simp [Options.checkAndSetMeasureDrivenInitialPartition,
      Options.setOptimalityFromOperator]
  rw [h2] at h ⊢
  rw [mdPath_opt_of_md _ _ _ h]

/-- Claim C6: when a single formula is a probability or reward operator
without explicit optimality direction but with a bound, the configured
optimalityType is Maximize for a < or <= comparison and Minimize otherwise;
an explicit direction on the operator takes precedence over the
inference. -/
theorem optimality_inference (m : Model) (sub : Formula) (cmp : ComparisonType)
    (d : OptimizationDirection) :
    ((optionsFromFormula m (.probOp none (some cmp) sub)).measureDrivenInitialPartition = true →
      (optionsFromFormula m (.probOp none (some cmp) sub)).optimalityType =
        some (if cmp = ComparisonType.Less ∨ cmp = ComparisonType.LessEqual
          then OptimizationDirection.Maximize else OptimizationDirection.Minimize)) ∧
    ((optionsFromFormula m (.rewardOp none (some cmp) sub)).measureDrivenInitialPartition = true →
      (optionsFromFormula m (.rewardOp none (some cmp) sub)).optimalityType =
        some (if cmp = ComparisonType.Less ∨ cmp = ComparisonType.LessEqual
          then OptimizationDirection.Maximize else OptimizationDirection.Minimize)) ∧
    ((optionsFromFormula m (.probOp (some d) (some cmp) sub)).measureDrivenInitialPartition = true →
      (optionsFromFormula m (.probOp (some d) (some cmp) sub)).optimalityType = some d) ∧
    ((optionsFromFormula m (.rewardOp (some d) (some cmp) sub)).measureDrivenInitialPartition = true →
      (optionsFromFormula m (.rewardOp (some d) (some cmp) sub)).optimalityType = some d) :=
  ⟨fun h => checkAndSet_bound_prob _ m sub cmp h,
   fun h => checkAndSet_bound_reward _ m sub cmp h,
   fun h => checkAndSet_explicit_prob _ m sub d (some cmp) h,
   fun h => checkAndSet_explicit_reward _ m sub d (some cmp) h⟩

theorem preserveFormula_fields (o : Options) (f : Formula) :
    (o.preserveFormula f).keepRewards = (o.keepRewards || f.containsRewardOperator) ∧
    (o.preserveFormula f).bounded =
      (o.bounded || (f.containsBoundedUntilFormula || f.containsNextFormula)) ∧
    (o.preserveFormula f).measureDrivenInitialPartition = false ∧
    (o.preserveFormula f).phiStates = none ∧
    (o.preserveFormula f).psiStates = none ∧
    (o.preserveFormula f).optimalityType = o.optimalityType ∧
    (o.preserveFormula f).buildQuotient = o.buildQuotient ∧
    (o.preserveFormula f).type = o.type ∧
    (o.preserveFormula f).respectedAtomicPropositions.isSome = true := by
  cases ho : o.respectedAtomicPropositions <;>
    simp [Options.preserveFormula, Options.addToRespectedAtomicPropositions, ho]

theorem preserveFormula_respMem (o : Options) (f : Formula) (l : String) :
    respMem (o.preserveFormula f) l ↔
      (respMem o l ∨ l ∈ f.atomicLabelStrings ∨ l ∈ f.atomicExprStrings) := by
  cases ho : o.respectedAtomicPropositions with
  | none =>
    simp [respMem, Options.preserveFormula, Options.addToRespectedAtomicPropositions, ho]
  | some L =>
    simp [respMem, Options.preserveFormula, Options.addToRespectedAtomicPropositions, ho,
      List.mem_append, or_assoc]

theorem foldPreserve_fields :
    ∀ (fs : List Formula) (o : Options),
      (fs.foldl (fun a f => a.preserveFormula f) o).keepRewards =
        (o.keepRewards || fs.any (·.containsRewardOperator)) ∧
      (fs.foldl (fun a f => a.preserveFormula f) o).bounded =
        (o.bounded || fs.any (fun f => f.containsBoundedUntilFormula || f.containsNextFormula)) ∧
      (fs.foldl (fun a f => a.preserveFormula f) o).optimalityType = o.optimalityType ∧
      (fs ≠ [] →
        (fs.foldl (fun a f => a.preserveFormula f) o).measureDrivenInitialPartition = false ∧
        (fs.foldl (fun a f => a.preserveFormula f) o).phiStates = none ∧
        (fs.foldl (fun a f => a.preserveFormula f) o).psiStates = none ∧
        (fs.foldl (fun a f => a.preserveFormula f) o).respectedAtomicPropositions.isSome = true) ∧
      (∀ l, respMem (fs.foldl (fun a f => a.preserveFormula f) o) l ↔
        (respMem o l ∨ ∃ f ∈ fs, l ∈ f.atomicLabelStrings ∨ l ∈ f.atomicExprStrings)) := by
  intro fs
  induction fs with
  | nil =>
    intro o
    refine ⟨by simp, by simp, rfl, fun h => absurd rfl h, fun l => ?_⟩
    simp
  | cons f fs ih =>
    intro o
    have hpf := preserveFormula_fields o f
    have hih := ih (o.preserveFormula f)
    have hfold : (f :: fs).foldl (fun a f => a.preserveFormula f) o =
        fs.foldl (fun a f => a.preserveFormula f) (o.preserveFormula f) := rfl
    rw [hfold]
    refine ⟨?_, ?_, ?_, ?_, ?_⟩
    · rw [hih.1, hpf.1]
      simp [Bool.or_assoc]
    · rw [hih.2.1, hpf.2.1]
      simp [Bool.or_assoc]
    · rw [hih.2.2.1, hpf.2.2.2.2.2.1]
    · intro _
      cases fs with
      | nil =>
        exact ⟨hpf.2.2.1, hpf.2.2.2.1, hpf.2.2.2.2.1, hpf.2.2.2.2.2.2.2.2⟩
      | cons f2 fs2 =>
        exact hih.2.2.2.1 (by simp)
    · intro l
      rw [hih.2.2.2.2 l, preserveFormula_respMem o f l]
      simp only [List.exists_mem_cons_iff]
      exact or_assoc

/-- Claim C7: for a list of more than one formula, keepRewards is true iff
some formula contains a reward operator, bounded is true iff some formula
contains a bounded-until or next subformula, the respected atomic
propositions are exactly the union of the formulas' atomic labels and
atomic expressions, and the measure-driven partition is disabled with phi
and psi absent. -/
theorem multi_formula_union (m : Model) (fs : List Formula) (h : 1 < fs.length) :
    (optionsFromFormulas m fs).keepRewards = fs.any (·.containsRewardOperator) ∧
    (optionsFromFormulas m fs).bounded =
      fs.any (fun f => f.containsBoundedUntilFormula || f.containsNextFormula) ∧
    (optionsFromFormulas m fs).measureDrivenInitialPartition = false ∧
    (optionsFromFormulas m fs).phiStates = none ∧
    (optionsFromFormulas m fs).psiStates = none ∧
    (optionsFromFormulas m fs).respectedAtomicPropositions.isSome = true ∧
    (∀ l, respMem (optionsFromFormulas m fs) l ↔
      ∃ f ∈ fs, l ∈ f.atomicLabelStrings ∨ l ∈ f.atomicExprStrings) := by
  have hnil : fs ≠ [] := by
    intro he
    rw [he] at h
    simp at h
  have hne : ¬(fs.isEmpty = true) := by
    simp [List.isEmpty_iff, hnil]
  have hlen : ¬(fs.length = 1) := by omega
  have heq : optionsFromFormulas m fs =
      fs.foldl (fun a f => a.preserveFormula f) Options.default0 := by
    simp [optionsFromFormulas, hne, hlen]
  rw [heq]
  obtain ⟨h1, h2, h3, h4, h5⟩ := foldPreserve_fields fs Options.default0
  obtain ⟨h4a, h4b, h4c, h4d⟩ := h4 hnil
  refine ⟨?_, ?_, h4a, h4b, h4c, h4d, ?_⟩
  · rw [h1]
    simp [Options.default0]
  · rw [h2]
    simp [Options.default0]
  · intro l
    rw [h5 l]
    simp [respMem, Options.default0]

/-- Claim C10: after configuration from a single formula or a formula list,
optimalityType is present only if measureDrivenInitialPartition is true:
whenever the measure-driven analysis does not apply, optimalityType is reset
to absent, even if a direction had been set from the operator. -/
theorem optimality_needs_measure_driven (m : Model) (f : Formula) (fs : List Formula) :
    ((optionsFromFormula m f).optimalityType.isSome = true →
      (optionsFromFormula m f).measureDrivenInitialPartition = true) ∧
    ((optionsFromFormulas m fs).optimalityType.isSome = true →
      (optionsFromFormulas m fs).measureDrivenInitialPartition = true) := by
  have hsingle : ∀ (o : Options) (g : Formula),
      (o.preserveSingleFormula m g).optimalityType.isSome = true →
      (o.preserveSingleFormula m g).measureDrivenInitialPartition = true := by
    intro o g hs
    by_cases hmd : (o.preserveSingleFormula m g).measureDrivenInitialPartition = true
    · exact hmd
    · rw [Bool.not_eq_true] at hmd
      rw [preserveSingle_opt_none_of_not_md o m g hmd] at hs
      simp at hs
  constructor
  · exact hsingle Options.default0 f
  · cases fs with
    | nil =>
      intro hs
      rw [show (optionsFromFormulas m []).optimalityType = none from rfl] at hs
      simp at hs
    | cons f1 fs1 =>
      cases fs1 with
      | nil => exact hsingle Options.default0 f1
      | cons f2 fs2 =>
        intro hs
        have hlen : 1 < (f1 :: f2 :: fs2).length := by simp
        have hnil : (f1 :: f2 :: fs2) ≠ [] := by simp
        have hne : ¬((f1 :: f2 :: fs2).isEmpty = true) := by simp
        have hlen1 : ¬((f1 :: f2 :: fs2).length = 1) := by simp
        have heq : optionsFromFormulas m (f1 :: f2 :: fs2) =
            (f1 :: f2 :: fs2).foldl (fun a f => a.preserveFormula f) Options.default0 := by
          simp [optionsFromFormulas, hne, hlen1]
        rw [heq, (foldPreserve_fields (f1 :: f2 :: fs2) Options.default0).2.2.1] at hs
        simp [Options.default0] at hs

theorem mdPath_until (o1 : Options) (m : Model) (l r : Formula)
    (hl : l.isPropositional = true) (hr : r.isPropositional = true) :
    (o1.measureDrivenFromPath m (.untilF l r)).measureDrivenInitialPartition = true ∧
    (o1.measureDrivenFromPath m (.untilF l r)).phiStates = some (stateSetOf m l) ∧
    (o1.measureDrivenFromPath m (.untilF l r)).psiStates = some (stateSetOf m r) := by
  simp [Options.measureDrivenFromPath, hl, hr]

theorem mdPath_eventually (o1 : Options) (m : Model) (r : Formula)
    (hr : r.isPropositional = true) :
    (o1.measureDrivenFromPath m (.eventuallyF r)).measureDrivenInitialPartition = true ∧
    (o1.measureDrivenFromPath m (.eventuallyF r)).phiStates =
      some (stateSetOf m (Formula.boolLit true)) ∧
    (o1.measureDrivenFromPath m (.eventuallyF r)).psiStates = some (stateSetOf m r) := by
  simp [Options.measureDrivenFromPath, hr]

theorem setOpt_snd_probOp (o : Options) (ot : Option OptimizationDirection)
    (cmp : Option ComparisonType) (sub : Formula) :
    (o.setOptimalityFromOperator (.probOp ot cmp sub)).2 = sub := by
  cases ot <;> cases cmp <;>
    first
    | rfl
    | (simp only [Options.setOptimalityFromOperator]
       split <;> rfl)

theorem setOpt_snd_rewardOp (o : Options) (ot : Option OptimizationDirection)
    (cmp : Option ComparisonType) (sub : Formula) :
    (o.setOptimalityFromOperator (.rewardOp ot cmp sub)).2 = sub := by
  cases ot <;> cases cmp <;>
    first
    | rfl
    | (simp only [Options.setOptimalityFromOperator]
       split <;> rfl)

theorem checkAndSet_as_mdPath (o : Options) (m : Model) (f : Formula) :
    o.checkAndSetMeasureDrivenInitialPartition m f =
      Options.measureDrivenFromPath (o.setOptimalityFromOperator f).1 m
        (o.setOptimalityFromOperator f).2 := rfl

theorem checkAndSet_until_of_unwrap (o : Options) (m : Model) (f l r : Formula)
    (hf : (o.setOptimalityFromOperator f).2 = .untilF l r)
    (hl : l.isPropositional = true) (hr : r.isPropositional = true) :
    (o.checkAndSetMeasureDrivenInitialPartition m f).measureDrivenInitialPartition = true ∧
    (o.checkAndSetMeasureDrivenInitialPartition m f).phiStates = some (stateSetOf m l) ∧
    (o.checkAndSetMeasureDrivenInitialPartition m f).psiStates = some (stateSetOf m r) := by
  rw [checkAndSet_as_mdPath, hf]
  exact mdPath_until _ m l r hl hr

theorem checkAndSet_eventually_of_unwrap (o : Options) (m : Model) (f r : Formula)
    (hf : (o.setOptimalityFromOperator f).2 = .eventuallyF r)
    (hr : r.isPropositional = true) :
    (o.checkAndSetMeasureDrivenInitialPartition m f).measureDrivenInitialPartition = true ∧
    (o.checkAndSetMeasureDrivenInitialPartition m f).phiStates =
      some (stateSetOf m (Formula.boolLit true)) ∧
    (o.checkAndSetMeasureDrivenInitialPartition m f).psiStates = some (stateSetOf m r) := by
  rw [checkAndSet_as_mdPath, hf]
  exact mdPath_eventually _ m r hr

/-- Claim C4, amended: when the single formula's leading probability/reward
operator unwraps to an Until or Eventually with propositional side(s),
measureDrivenInitialPartition is enabled and phiStates/psiStates are set to
the satisfaction sets of the left (or the true-literal) and right
subformulas computed via the propositional-model-checking collaborator; the
probability-0/1 computation only happens later, when the measure-driven
partition is built. -/
theorem measure_driven_sets_phi_psi (m : Model) (l r : Formula)
    (ot : Option OptimizationDirection) (cmp : Option ComparisonType)
    (hl : l.isPropositional = true) (hr : r.isPropositional = true) :
    ((optionsFromFormula m (.probOp ot cmp (.untilF l r))).measureDrivenInitialPartition = true ∧
     (optionsFromFormula m (.probOp ot cmp (.untilF l r))).phiStates = some (stateSetOf m l) ∧
     (optionsFromFormula m (.probOp ot cmp (.untilF l r))).psiStates = some (stateSetOf m r)) ∧
    ((optionsFromFormula m (.probOp ot cmp (.eventuallyF r))).measureDrivenInitialPartition = true ∧
     (optionsFromFormula m (.probOp ot cmp (.eventuallyF r))).phiStates =
       some (stateSetOf m (Formula.boolLit true)) ∧
     (optionsFromFormula m (.probOp ot cmp (.eventuallyF r))).psiStates = some (stateSetOf m r)) ∧
    ((optionsFromFormula m (.rewardOp ot cmp (.untilF l r))).measureDrivenInitialPartition = true ∧
     (optionsFromFormula m (.rewardOp ot cmp (.untilF l r))).phiStates = some (stateSetOf m l) ∧
     (optionsFromFormula m (.rewardOp ot cmp (.untilF l r))).psiStates = some (stateSetOf m r)) ∧
    ((optionsFromFormula m (.rewardOp ot cmp (.eventuallyF r))).measureDrivenInitialPartition = true ∧
     (optionsFromFormula m (.rewardOp ot cmp (.eventuallyF r))).phiStates =
       some (stateSetOf m (Formula.boolLit true)) ∧
     (optionsFromFormula m (.rewardOp ot cmp (.eventuallyF r))).psiStates = some (stateSetOf m r)) := by
  exact ⟨checkAndSet_until_of_unwrap _ m _ l r (setOpt_snd_probOp _ ot cmp _) hl hr,
    checkAndSet_eventually_of_unwrap _ m _ r (setOpt_snd_probOp _ ot cmp _) hr,
    checkAndSet_until_of_unwrap _ m _ l r (setOpt_snd_rewardOp _ ot cmp _) hl hr,
    checkAndSet_eventually_of_unwrap _ m _ r (setOpt_snd_rewardOp _ ot cmp _) hr⟩

/-- Claim C8: in every iteration of the refinement loop, the splitter
removed from the pending set is one with the smallest number of states among
all pending splitters, its flag is cleared in the partition the refinement
is applied to, and the loop returns only when no splitter is pending. -/
theorem splitter_selection (m : Model) (P : List Block) (fuel : Nat) (spl : Block)
    (h : minSplitter P = some spl) :
    spl ∈ P ∧ spl.splitter = true ∧
    (∀ b ∈ P, b.splitter = true → spl.states.length ≤ b.states.length) ∧
    { spl with splitter := false } ∈ clearFirst P spl ∧
    refineStep m P spl = (clearFirst P spl).flatMap (refineBlock m spl.states) ∧
    (∀ Pf, refineLoop m fuel P = some Pf → ∀ b ∈ Pf, b.splitter = false) := by
  obtain ⟨h1, h2, h3⟩ := minSplitter_spec h
  exact ⟨h1, h2, h3, clearFirst_cleared_mem h1, rfl, fun Pf hPf b hb =>
    minSplitter_none (refineLoop_finished m fuel P Pf hPf) b hb⟩

/-- Claim C5, amended: the measure-driven initial partition is a three-way
partition seeded from the probability-0 states, from psiStates (when bounded
or keepRewards is set) or else the probability-1 states, and the remaining
states; one designated representative psi-state (the first) is chosen
whenever psiStates is non-empty; and if keepRewards is set and the model has
a reward model, a state-reward split follows, after which no block mixes
rewards. -/
theorem initMeasureDriven_spec (m : Model) (opts : Options) (phiL psiL : List Nat)
    (hphi : opts.phiStates = some phiL) (hpsi : opts.psiStates = some psiL) :
    ((initMeasureDrivenPartition m opts).representativePsiState = psiL.head?) ∧
    ((∃ s, (initMeasureDrivenPartition m opts).representativePsiState = some s) ↔ psiL ≠ []) ∧
    ((initMeasureDrivenPartition m opts).blocks =
      (if opts.keepRewards && m.hasRewardModel then
        splitInitialPartitionBasedOnStateRewards m
          (threeWayBlocks m.numberOfStates (prob0States m (memList phiL) (memList psiL))
            (if opts.bounded || opts.keepRewards then psiL
             else prob1States m (memList phiL) (memList psiL)))
       else
        threeWayBlocks m.numberOfStates (prob0States m (memList phiL) (memList psiL))
          (if opts.bounded || opts.keepRewards then psiL
           else prob1States m (memList phiL) (memList psiL)))) ∧
    (opts.keepRewards = true → m.hasRewardModel = true →
      rewardConstant m (initMeasureDrivenPartition m opts).blocks) := by
  have hblocks : (initMeasureDrivenPartition m opts).blocks =
      (if opts.keepRewards && m.hasRewardModel then
        splitInitialPartitionBasedOnStateRewards m
          (threeWayBlocks m.numberOfStates (prob0States m (memList phiL) (memList psiL))
            (if opts.bounded || opts.keepRewards then psiL
             else prob1States m (memList phiL) (memList psiL)))
       else
        threeWayBlocks m.numberOfStates (prob0States m (memList phiL) (memList psiL))
          (if opts.bounded || opts.keepRewards then psiL
           else prob1States m (memList phiL) (memList psiL))) := by
    simp [initMeasureDrivenPartition, getStatesWithProbability01, hphi, hpsi]
  refine ⟨?_, ?_, hblocks, ?_⟩
  · simp [initMeasureDrivenPartition, hpsi]
  · rw [show (initMeasureDrivenPartition m opts).representativePsiState = psiL.head? by
      simp [initMeasureDrivenPartition, hpsi]]
    cases psiL <;> simp
  · intro hk hr
    rw [hblocks, if_pos (by rw [hk, hr]; rfl)]
    exact splitByRewards_rewardConstant _ _

/-- Claim C4, counterexample: on a concrete two-state model and the formula
P(Eventually "a"), the configured phiStates and psiStates are not the
probability-0 and probability-1 state sets of the reachability objective
(they are the satisfaction sets of the subformulas instead). -/
theorem c4_counterexample :
    (optionsFromFormula mW2 fW2).measureDrivenInitialPartition = true ∧
    (optionsFromFormula mW2 fW2).phiStates ≠
      some (prob0States mW2 (checkProp mW2 (Formula.boolLit true))
        (checkProp mW2 (Formula.atomicLabel "a"))) ∧
    (optionsFromFormula mW2 fW2).psiStates ≠
      some (prob1States mW2 (checkProp mW2 (Formula.boolLit true))
        (checkProp mW2 (Formula.atomicLabel "a"))) := by decide

/-- Claim C5, counterexample: on a concrete three-state model with
phiStates = {1} and psiStates = {2}, the measure-driven partition is not
seeded from phiStates/psiStates/remainder — it has two blocks where the
claimed seeding gives three. -/
theorem c5_counterexample :
    (initMeasureDrivenPartition mW3 oW3).blocks ≠
      claimedMeasureDrivenBlocks mW3.numberOfStates (oW3.phiStates.getD [])
        (oW3.psiStates.getD []) ∧
    (initMeasureDrivenPartition mW3 oW3).blocks.length = 2 ∧
    (claimedMeasureDrivenBlocks mW3.numberOfStates (oW3.phiStates.getD [])
      (oW3.psiStates.getD [])).length = 3 := by decide

/-- Witness for C1 at a concrete one-state model. -/
theorem c1_witness :
    decompose 3 mW1 Options.default0 = Except.ok (some dW1) ∧
    (∀ B ∈ [[0]], ∀ s ∈ B, ∀ t ∈ B, ∀ C ∈ [[0]], signature mW1 s C = signature mW1 t C) :=
  ⟨by rfl, stability_after_decompose 3 mW1 Options.default0 dW1 [[0]] (by rfl) (by rfl)⟩

theorem c2_witness :
    ((oWeakBounded.type = BisimulationType.Weak ∧ oWeakBounded.bounded = true) ∧
      (∃ e, decompose 1 mW1 oWeakBounded = .error e)) ∧
    ((oKeepW.keepRewards = true ∧ 1 < mW4.rewardModels.length) ∧
      (∃ e, decompose 1 mW4 oKeepW = .error e)) ∧
    ((oKeepW.keepRewards = true ∧ mW5.rewardModels.length = 1 ∧
        mW5.uniqueRewardModel.onlyStateRewards = false) ∧
      (∃ e, decompose 1 mW5 oKeepW = .error e)) ∧
    ((oMdW.measureDrivenInitialPartition = true ∧
        (oMdW.phiStates = none ∨ oMdW.psiStates = none)) ∧
      (∃ e, decompose 1 mW1 oMdW = .error e)) :=
  ⟨⟨⟨rfl, rfl⟩, (config_errors_abort 1 mW1 oWeakBounded).1 ⟨rfl, rfl⟩⟩,
   ⟨⟨rfl, by decide⟩, (config_errors_abort 1 mW4 oKeepW).2.1 ⟨rfl, by decide⟩⟩,
   ⟨⟨rfl, rfl, rfl⟩, (config_errors_abort 1 mW5 oKeepW).2.2.1 ⟨rfl, rfl, rfl⟩⟩,
   ⟨⟨rfl, Or.inl rfl⟩, (config_errors_abort 1 mW1 oMdW).2.2.2 ⟨rfl, Or.inl rfl⟩⟩⟩

theorem c3_witness :
    (dW0.quotient = none ∧ getQuotient dW0 = .error .IllegalFunctionCall) ∧
    (dW1.quotient = some (quotientOf mW1 [[0]]) ∧
      getQuotient dW1 = .ok (quotientOf mW1 [[0]])) ∧
    (mkBisimulationDecomposition mW1 Options.default0 = .ok dW0 ∧
      getQuotient dW0 = .error .IllegalFunctionCall) ∧
    (computeBisimulationDecomposition 3 dW3 = .ok (some dW3f) ∧
      dW3.options.buildQuotient = false ∧
      getQuotient dW3f = .error .IllegalFunctionCall) ∧
    (computeBisimulationDecomposition 3 dW0 = .ok (some dW1) ∧
      dW0.options.buildQuotient = true ∧ ∃ q, getQuotient dW1 = .ok q) :=
  ⟨⟨rfl, (getQuotient_spec dW0 mW1 Options.default0 3).1 rfl⟩,
   ⟨rfl, (getQuotient_spec dW1 mW1 Options.default0 3).2.1 _ rfl⟩,
   ⟨by rfl, (getQuotient_spec dW0 mW1 Options.default0 3).2.2.1 dW0 (by rfl)⟩,
   ⟨by rfl, rfl, (getQuotient_spec dW3f mW1 Options.default0 3).2.2.2.1 dW3 dW3f (by rfl) rfl⟩,
   ⟨by rfl, rfl, (getQuotient_spec dW1 mW1 Options.default0 3).2.2.2.2 dW0 dW1 (by rfl) rfl⟩⟩

theorem c4_amended_witness :
    ((Formula.boolLit true).isPropositional = true ∧
      (Formula.atomicLabel "a").isPropositional = true) ∧
    ((optionsFromFormula mW2 (.probOp none none
        (.untilF (Formula.boolLit true) (Formula.atomicLabel "a")))).measureDrivenInitialPartition = true ∧
     (optionsFromFormula mW2 (.probOp none none
        (.untilF (Formula.boolLit true) (Formula.atomicLabel "a")))).phiStates =
       some (stateSetOf mW2 (Formula.boolLit true)) ∧
     (optionsFromFormula mW2 (.probOp none none
        (.untilF (Formula.boolLit true) (Formula.atomicLabel "a")))).psiStates =
       some (stateSetOf mW2 (Formula.atomicLabel "a"))) :=
  ⟨⟨rfl, rfl⟩,
   (measure_driven_sets_phi_psi mW2 (Formula.boolLit true) (Formula.atomicLabel "a")
     none none rfl rfl).1⟩

theorem c5_amended_witness :
    (oW3.phiStates = some [1] ∧ oW3.psiStates = some [2]) ∧
    (initMeasureDrivenPartition mW3 oW3).representativePsiState = [2].head? ∧
    ((∃ s, (initMeasureDrivenPartition mW3 oW3).representativePsiState = some s) ↔
      ([2] : List Nat) ≠ []) :=
  ⟨⟨rfl, rfl⟩,
   (initMeasureDriven_spec mW3 oW3 [1] [2] rfl rfl).1,
   (initMeasureDriven_spec mW3 oW3 [1] [2] rfl rfl).2.1⟩

theorem c6_witness :
    (optionsFromFormula mW1 (.probOp none (some ComparisonType.Less) subW)).measureDrivenInitialPartition = true ∧
    (optionsFromFormula mW1 (.probOp none (some ComparisonType.Less) subW)).optimalityType =
      some OptimizationDirection.Maximize ∧
    (optionsFromFormula mW1 (.probOp (some OptimizationDirection.Minimize)
      (some ComparisonType.Less) subW)).optimalityType = some OptimizationDirection.Minimize := by
  refine ⟨by decide, ?_, ?_⟩
  · have h := (optimality_inference mW1 subW ComparisonType.Less OptimizationDirection.Minimize).1 (by decide)
    simpa using h
  · exact (optimality_inference mW1 subW ComparisonType.Less OptimizationDirection.Minimize).2.2.1 (by decide)

theorem c7_witness :
    1 < fsW.length ∧
    (optionsFromFormulas mW1 fsW).keepRewards = fsW.any (·.containsRewardOperator) ∧
    (optionsFromFormulas mW1 fsW).measureDrivenInitialPartition = false ∧
    respMem (optionsFromFormulas mW1 fsW) "a" :=
  ⟨by decide,
   (multi_formula_union mW1 fsW (by decide)).1,
   (multi_formula_union mW1 fsW (by decide)).2.2.1,
   ((multi_formula_union mW1 fsW (by decide)).2.2.2.2.2.2 "a").mpr
     ⟨Formula.rewardOp none none subW, by decide, Or.inl (by decide)⟩⟩

theorem c8_witness :
    minSplitter PW = some splW ∧
    splW ∈ PW ∧ splW.splitter = true ∧
    (∀ b ∈ PW, b.splitter = true → splW.states.length ≤ b.states.length) :=
  have h : minSplitter PW = some splW := by decide
  ⟨h, (splitter_selection mW1 PW 4 splW h).1, (splitter_selection mW1 PW 4 splW h).2.1,
    (splitter_selection mW1 PW 4 splW h).2.2.1⟩

theorem c9_witness :
    (oKeepW.keepRewards = true ∧ mW6.hasRewardModel = true) ∧
    (∀ k, rewardConstant mW6 (iterSteps mW6 k (markAllSplitters
      (initialPartitionOf { model := mW6, options := oKeepW, finalBlocks := none, quotient := none })))) :=
  ⟨⟨rfl, rfl⟩, (rewards_never_mixed mW6 oKeepW rfl rfl).1⟩

theorem c10_witness :
    (optionsFromFormula mW1 fW10).optimalityType.isSome = true ∧
    (optionsFromFormula mW1 fW10).measureDrivenInitialPartition = true :=
  ⟨by decide, (optimality_needs_measure_driven mW1 fW10 [fW10]).1 (by decide)⟩
